import Mathlib

/-!
Verification of `mod/modfile/modfile.go`.

A shallow embedding of the module-file reader of the CUE module system
(`cuelang.org/go/mod/modfile`) together with theorems about it.

Conventions of the embedding.

* A Go `string` is a Lean `String`; byte offsets into a string are indices into
  `String.data` (every element stands for one byte of the Go string).
* A Go `map[string]T` is a `List (String × T)` whose keys are pairwise distinct.
  The order of the list is the order in which a `range` loop happens to visit
  the map, so a statement about a loop is quantified over every such list.
* A Go `(T, error)` result is an `Except`.
* The packages `semver`, `module`, `cueversion`, the CUE engine (`cue`,
  `parser`, `errors`, `token`) and the embedded file `schema.cue` are not part of
  the verified file.  They are parameters of the embedding (`Semver`,
  `ModulePkg`, `Engine`, `Env`); what a theorem needs from them is a hypothesis
  of that theorem.
-/

set_option autoImplicit false

namespace Modfile

/-! ## Data model -/

deriving instance DecidableEq for Except

/-- Go `error` values produced by this package.  `E` is the error type of the
CUE engine. -/
inductive Error (E : Type) where
  /-- The value of `fmt.Errorf(...)` with the formatted message. -/
  | errorf (msg : String)
  /-- The value of `errors.Wrapf(err, token.NoPos, msg)`. -/
  | wrapf (err : E) (msg : String)
  /-- An engine error that is returned as it is. -/
  | cue (err : E)
  deriving DecidableEq, Repr

/-- Go `type Language struct`. -/
structure Language where
  Version : String
  deriving DecidableEq, Repr

/-- Go `type Source struct`. -/
structure Source where
  Kind : String
  deriving DecidableEq, Repr

/-- Go `type Dep struct`. -/
structure Dep where
  Version : String
  Default : Bool
  deriving DecidableEq, Repr

/-- Go `module.Version`: a module path and a version, both unexported fields
read through `Path()` and `Version()`. -/
structure Version where
  path : String
  version : String
  deriving DecidableEq, Repr

/-- Go `type File struct`.  `Deps = none` is the nil map.  The nil slice and the
nil map of the two derived fields are the empty list. -/
structure File where
  Module : String
  Language : Option Language
  Source : Option Source
  Deps : Option (List (String × Dep))
  versions : List Version
  defaultMajorVersions : List (String × String)
  actualSchemaVersion : String
  deriving DecidableEq, Repr

/-- The exported fields of `File`, which is what `v.Decode(&mf)` fills in. -/
structure FileFields where
  Module : String
  Language : Option Language
  Source : Option Source
  Deps : Option (List (String × Dep))
  deriving DecidableEq, Repr

/-- Go `token.Pos`, as far as this package reads it: `Filename()` and
`Offset()`. -/
structure Pos where
  Filename : String
  Offset : Nat
  deriving DecidableEq, Repr

/-! ## External packages (parameters) -/

/-- The functions of `cuelang.org/go/internal/mod/semver` that the file calls. -/
structure Semver where
  Compare : String → String → Int
  IsValid : String → Bool
  Major : String → String
  Canonical : String → String

/-- The functions of `cuelang.org/go/mod/module` that the file calls, except
`module.Sort`.  An `error` of the package is represented by its text. -/
structure ModulePkg where
  SplitPathVersion : String → String × String × Bool
  CheckPathWithoutVersion : String → Option String
  NewVersion : String → String → Except String Version
  BasePath : Version → String

/-- The CUE engine as the file uses it.  `Syntax` is `*ast.File`, `Value` is
`cue.Value`, `E` is the engine's error type. -/
structure Engine (Syntax Value E : Type) where
  /-- Go `parser.ParseFile(filename, modfile)`. -/
  ParseFile : String → String → Except E Syntax
  /-- Go `ctx.BuildFile(file)`. -/
  BuildFile : Syntax → Value
  /-- Go `v.Validate(cue.Concrete(true))`; `none` is the nil error. -/
  ValidateConcrete : Value → Option E
  /-- Go `v.Decode(&base)` for `baseFileVersion`, giving
  `base.Language.Version`. -/
  DecodeBase : Value → Except E String
  /-- The decoded `schemas.Versions` map, in the order the loop visits it. -/
  Versions : List (String × Value)
  /-- The zero `cue.Value`. -/
  zeroValue : Value
  /-- Go `lookup(schema, cue.Def("#File"))`. -/
  LookupFile : Value → Value
  /-- Go `v.Unify(w)`. -/
  Unify : Value → Value → Value
  /-- Go `v.Validate()`; `none` is the nil error. -/
  Validate : Value → Option E
  /-- Go `v.Decode(&f)` for `noDepsFile`, giving `f.Module`. -/
  DecodeNoDeps : Value → Except E String
  /-- Go `v.Decode(&mf)` for `File`. -/
  DecodeFile : Value → Except E FileFields
  /-- Go `errors.Positions(err)`. -/
  Positions : E → List Pos
  /-- Go `cueversion.LanguageVersion()`. -/
  LanguageVersion : String
  /-- Go `ctx.CompileBytes(modfile, cue.Filename(filename))`. -/
  CompileBytes : String → String → Value
  /-- Go `v.Err()`; `none` is the nil error. -/
  Err : Value → Option E
  /-- Go `cuecontext.New().Encode(f)` for a `*File`: only the exported fields are
  encoded. -/
  Encode : FileFields → Value
  /-- Go `format.Node(&ast.File{Decls: n.Elts})` for
  `n := v.Syntax(cue.Concrete(true)).(*ast.StructLit)`; an error is represented by
  its text. -/
  FormatNode : Value → Except String String

/-- Everything outside the file that `parse` depends on. -/
structure Env (Syntax Value E : Type) where
  semver : Semver
  module : ModulePkg
  cue : Engine Syntax Value E
  /-- The text that the `fmt` verb `%q` prints for a string. -/
  quote : String → String
  /-- The embedded file `schema.cue` (Go `moduleSchemaData`). -/
  moduleSchemaData : String
  /-- Go `errors.Details(err, nil)`. -/
  details : Error E → String

/-- Go `const schemaFile`. -/
def schemaFile : String := "cuelang.org/go/mod/modfile/schema.cue"

/-! ## The version selector (the loop of `parse` over `schemas.Versions`) -/

/-- One iteration of `for vers, schema := range schemas.Versions` in `parse`;
the state is `(latest, latestSchema)`. -/
def selectStep {Value : Type} (sv : Semver) (declared : String)
    (st : String × Value) (entry : String × Value) : String × Value :=
  if sv.Compare entry.1 declared > 0 then st
  else if st.1 = "" ∨ sv.Compare entry.1 st.1 > 0 then (entry.1, entry.2)
  else st

/-- The whole selector loop, started from `latest := ""` and the zero
`latestSchema`. -/
def selectLoop {Value : Type} (sv : Semver) (declared : String) (zero : Value)
    (versions : List (String × Value)) : String × Value :=
  versions.foldl (selectStep sv declared) ("", zero)

/-- The selector with the check `if latest == ""` that follows the loop:
`none` is the branch that returns the "cannot find schema" error. -/
def selectSchema {Value : Type} (sv : Semver) (declared : String) (zero : Value)
    (versions : List (String × Value)) : Option (String × Value) :=
  let r := selectLoop sv declared zero versions
  if r.1 = "" then none else some r

/-! ## Catalog limits (`schemaVersionLimits`) -/

/-- One iteration of `for v := range info.Versions` in `schemaVersionLimits`;
the state is `(earliest, latest)`. -/
def limitsStep (sv : Semver) (st : String × String) (v : String) : String × String :=
  (if st.1 = "" ∨ sv.Compare v st.1 < 0 then v else st.1,
   if st.2 = "" ∨ sv.Compare v st.2 > 0 then v else st.2)

/-- Go `schemaVersionLimits()`: the pair `[2]string{earliest, latest}` computed
from the keys of `info.Versions`. -/
def schemaVersionLimits {Value : Type} (sv : Semver) (versions : List (String × Value)) :
    String × String :=
  (versions.map Prod.fst).foldl (limitsStep sv) ("", "")

/-- Go `EarliestClosedSchemaVersion()`. -/
def EarliestClosedSchemaVersion {Value : Type} (sv : Semver)
    (versions : List (String × Value)) : String :=
  (schemaVersionLimits sv versions).1

/-- Go `LatestKnownSchemaVersion()`. -/
def LatestKnownSchemaVersion {Value : Type} (sv : Semver)
    (versions : List (String × Value)) : String :=
  (schemaVersionLimits sv versions).2

/-! ## Error translation (`cutLast`, `findErrorComment`, `newCUEError`) -/

/-- Go `strings.LastIndex(s, sep)` on byte lists; `none` is the result `-1`. -/
def lastIndex (s sep : List Char) : Option Nat :=
  match s with
  | [] => if sep = [] then some 0 else none
  | c :: t =>
    match lastIndex t sep with
    | some i => some (i + 1)
    | none => if sep.isPrefixOf (c :: t) then some 0 else none

/-- Go `cutLast(s, sep)`. -/
def cutLast (s sep : String) : String × String × Bool :=
  match lastIndex s.data sep.data with
  | some i => (String.mk (s.data.take i), String.mk (s.data.drop (i + sep.data.length)), true)
  | none => ("", s, false)

/-- Go `strings.CutPrefix(s, p)`. -/
def cutPrefix (s p : String) : String × Bool :=
  if p.data.isPrefixOf s.data then (String.mk (s.data.drop p.data.length), true)
  else (s, false)

/-- Go `findErrorComment(p)`, with the embedded schema text as a parameter. -/
def findErrorComment (moduleSchemaData : String) (p : Pos) : String :=
  if p.Filename ≠ schemaFile then ""
  else
    let off := p.Offset
    let source := moduleSchemaData
    if off > source.data.length then ""
    else
      let r1 := cutLast (String.mk (source.data.take off)) "\n"
      if ¬ r1.2.2 then ""
      else
        let r2 := cutLast r1.1 "\n"
        if ¬ r2.2.2 then ""
        else
          let r3 := cutPrefix r2.2.1 "//error: "
          if ¬ r3.2 then "" else r3.1

/-- The loop of `newCUEError` over the positions `ps`, ending in `return err`. -/
def newCUEErrorLoop {E : Type} (moduleSchemaData : String) (err : E) :
    List Pos → Error E
  | [] => Error.cue err
  | p :: ps =>
    let errStr := findErrorComment moduleSchemaData p
    if errStr ≠ "" then Error.errorf ("invalid module.cue file: " ++ errStr)
    else newCUEErrorLoop moduleSchemaData err ps

/-- Go `newCUEError(err, filename)`. -/
def newCUEError {Syntax Value E : Type} (env : Env Syntax Value E) (err : E)
    (_filename : String) : Error E :=
  newCUEErrorLoop env.moduleSchemaData err (env.cue.Positions err)

/-! ## `parse` -/

/-- Go map lookup `_, ok := m[k]` / `m[k]` on the list representation. -/
def mapGet (m : List (String × String)) (k : String) : Option String :=
  match m with
  | [] => none
  | (k1, v1) :: rest => if k1 = k then some v1 else mapGet rest k

/-- Go map assignment `m[k] = v` on the list representation. -/
def mapSet (m : List (String × String)) (k v : String) : List (String × String) :=
  match m with
  | [] => [(k, v)]
  | (k1, v1) :: rest => if k1 = k then (k, v) :: rest else (k1, v1) :: mapSet rest k v

/-- The closure passed to `moduleSchemaDo` in `parse`: from the syntax tree to the
decoded `File` with its `actualSchemaVersion`. -/
def decodeStage {Syntax Value E : Type} (env : Env Syntax Value E) (file : Syntax)
    (filename : String) : Except (Error E) File :=
  let v := env.cue.BuildFile file
  match env.cue.ValidateConcrete v with
  | some err => .error (.wrapf err "invalid module.cue file value")
  | none =>
  match env.cue.DecodeBase v with
  | .error err => .error (.wrapf err "cannot determine language version")
  | .ok baseVersion =>
  if baseVersion = "" then
    .error (.errorf "no language version declared in module.cue")
  else if env.semver.IsValid baseVersion = false then
    .error (.errorf ("language version " ++ env.quote baseVersion ++
      " in module.cue is not valid semantic version"))
  else if env.semver.Compare baseVersion env.cue.LanguageVersion > 0 then
    .error (.errorf ("language version " ++ env.quote baseVersion ++
      " declared in module.cue is too new for current language version " ++
      env.quote env.cue.LanguageVersion))
  else
  match selectSchema env.semver baseVersion env.cue.zeroValue env.cue.Versions with
  | none =>
    .error (.errorf ("cannot find schema suitable for reading module file with language version "
      ++ env.quote baseVersion))
  | some (latest, schema) =>
  let v := env.cue.Unify v (env.cue.LookupFile schema)
  match env.cue.Validate v with
  | some err => .error (newCUEError env err filename)
  | none =>
  if latest = "v0.0.0" then
    match env.cue.DecodeNoDeps v with
    | .error err => .error (newCUEError env err filename)
    | .ok module =>
      .ok { Module := module, Language := none, Source := none, Deps := none,
            versions := [], defaultMajorVersions := [], actualSchemaVersion := "v0.0.0" }
  else
    match env.cue.DecodeFile v with
    | .error err => .error (.wrapf err "internal error: cannot decode into modFile struct")
    | .ok mf =>
      .ok { Module := mf.Module, Language := mf.Language, Source := mf.Source, Deps := mf.Deps,
            versions := [], defaultMajorVersions := [], actualSchemaVersion := latest }

/-- The main-module part of `parse` (from `module.SplitPathVersion(mf.Module)` to
the end of the `if ok ... else if ...` statement).  The result is
`(mainPath, mainMajor, mf.Module)` as they stand afterwards. -/
def mainModule {Syntax Value E : Type} (env : Env Syntax Value E) (module filename : String)
    (strict : Bool) : Except (Error E) (String × String × String) :=
  let split := env.module.SplitPathVersion module
  let mainMajor := split.2.1
  let ok := split.2.2
  if strict = true ∧ ok = false then
    .error (.errorf ("module path " ++ env.quote module ++ " in " ++ filename ++
      " does not contain major version"))
  else if ok = true then
    if env.semver.Major mainMajor ≠ mainMajor then
      .error (.errorf ("module path " ++ module ++ " in " ++ env.quote filename ++
        " should contain the major version only"))
    else .ok (split.1, mainMajor, module)
  else
    let mainPath := module
    if mainPath ≠ "" then
      match env.module.CheckPathWithoutVersion mainPath with
      | some err =>
        .error (.errorf ("module path " ++ env.quote mainPath ++ " in " ++ env.quote filename ++
          " is not valid: " ++ err))
      | none => .ok (mainPath, "v0", module ++ "@v0")
    else .ok (mainPath, mainMajor, module)

/-- The `if mf.Language != nil` statement of `parse`; `none` means that no error
is returned. -/
def checkLanguage {Syntax Value E : Type} (env : Env Syntax Value E)
    (language : Option Language) (filename : String) : Option (Error E) :=
  match language with
  | none => none
  | some l =>
    let vers := l.Version
    if env.semver.IsValid vers = false then
      some (.errorf ("language version " ++ env.quote vers ++ " in " ++ filename ++
        " is not well formed"))
    else if env.semver.Canonical vers ≠ vers then
      some (.errorf ("language version " ++ vers ++ " in " ++ filename ++ " is not canonical"))
    else none

/-- The local variables `versions` and `defaultMajorVersions` of `parse`. -/
structure DepState where
  versions : List Version
  defaultMajorVersions : List (String × String)
  deriving DecidableEq, Repr

/-- One iteration of `for m, dep := range mf.Deps` in `parse`. -/
def depStep {Syntax Value E : Type} (env : Env Syntax Value E) (filename : String)
    (strict : Bool) (st : DepState) (entry : String × Dep) : Except (Error E) DepState :=
  let m := entry.1
  let dep := entry.2
  match env.module.NewVersion m dep.Version with
  | .error err =>
    .error (.errorf ("invalid module.cue file " ++ filename ++
      ": cannot make version from module " ++ env.quote m ++ ", version " ++
      env.quote dep.Version ++ ": " ++ err))
  | .ok vers =>
    let versions := st.versions ++ [vers]
    if strict = true ∧ vers.path ≠ m then
      .error (.errorf ("invalid module.cue file " ++ filename ++ ": no major version in " ++
        env.quote m))
    else if dep.Default = true then
      let mp := env.module.BasePath vers
      if (mapGet st.defaultMajorVersions mp).isSome then
        .error (.errorf ("multiple default major versions found for " ++ mp))
      else
        .ok { versions := versions,
              defaultMajorVersions :=
                mapSet st.defaultMajorVersions mp (env.semver.Major vers.version) }
    else .ok { versions := versions, defaultMajorVersions := st.defaultMajorVersions }

/-- The loop `for m, dep := range mf.Deps` in `parse`, over the entries in the
order in which they are visited. -/
def depsLoop {Syntax Value E : Type} (env : Env Syntax Value E) (filename : String)
    (strict : Bool) : DepState → List (String × Dep) → Except (Error E) DepState
  | st, [] => .ok st
  | st, entry :: rest =>
    match depStep env filename strict st entry with
    | .error err => .error err
    | .ok st1 => depsLoop env filename strict st1 rest

/-- Go `s < t` on strings: the lexicographic order of the bytes. -/
def stringLt : List Char → List Char → Bool
  | [], [] => false
  | [], _ :: _ => true
  | _ :: _, [] => false
  | a :: s, b :: t => decide (a.toNat < b.toNat) || (decide (a = b) && stringLt s t)

/-- Modelled from the spec: the order of `module.Sort`, which is not part of the
verified file.  The spec gives it as "by base path, then by version, ascending";
base paths are compared as strings and versions with `semver.Compare`. -/
def versionLE (sv : Semver) (mp : ModulePkg) (a b : Version) : Bool :=
  stringLt (mp.BasePath a).data (mp.BasePath b).data ||
    (decide (mp.BasePath a = mp.BasePath b) && decide (sv.Compare a.version b.version ≤ 0))

/-- Modelled from the spec: the insertion of one module version into a list that
is in the order of `module.Sort`. -/
def sortInsert (le : Version → Version → Bool) (v : Version) : List Version → List Version
  | [] => [v]
  | x :: xs => if le v x then v :: x :: xs else x :: sortInsert le v xs

/-- Modelled from the spec: `module.Sort`, which is not part of the verified file.
It puts a list of module versions in the ascending order `versionLE`. -/
def moduleSort (sv : Semver) (mp : ModulePkg) : List Version → List Version
  | [] => []
  | x :: xs => sortInsert (versionLE sv mp) x (moduleSort sv mp xs)

/-- The end of `parse` (from `if len(defaultMajorVersions) > 0` to `return mf`):
the file that is returned when the loop over `mf.Deps` ends in the state `st` and
`mf.Module` has become `module`. -/
def finish {Syntax Value E : Type} (env : Env Syntax Value E) (mf : File) (module : String)
    (st : DepState) : File :=
  { mf with
    Module := module
    defaultMajorVersions :=
      if st.defaultMajorVersions.length > 0 then st.defaultMajorVersions
      else mf.defaultMajorVersions
    versions := moduleSort env.semver env.module st.versions }

/-- The part of `parse` after the call of `moduleSchemaDo`, applied to the `File`
that it returned. -/
def postDecode {Syntax Value E : Type} (env : Env Syntax Value E) (mf : File)
    (filename : String) (strict : Bool) : Except (Error E) File :=
  match mainModule env mf.Module filename strict with
  | .error err => .error err
  | .ok (mainPath, mainMajor, module) =>
  match checkLanguage env mf.Language filename with
  | some err => .error err
  | none =>
  match depsLoop env filename strict
      { versions := [], defaultMajorVersions := [(mainPath, mainMajor)] }
      (mf.Deps.getD []) with
  | .error err => .error err
  | .ok st => .ok (finish env mf module st)

/-- Go `parse(modfile, filename, strict)`. -/
def parse {Syntax Value E : Type} (env : Env Syntax Value E) (modfile filename : String)
    (strict : Bool) : Except (Error E) File :=
  match env.cue.ParseFile filename modfile with
  | .error err => .error (.wrapf err "invalid module.cue file syntax")
  | .ok file =>
    match decodeStage env file filename with
    | .error err => .error err
    | .ok mf => postDecode env mf filename strict

/-- Go `Parse(modfile, filename)`. -/
def Parse {Syntax Value E : Type} (env : Env Syntax Value E) (modfile filename : String) :
    Except (Error E) File :=
  parse env modfile filename true

/-- Go `ParseNonStrict(modfile, filename)`. -/
def ParseNonStrict {Syntax Value E : Type} (env : Env Syntax Value E)
    (modfile filename : String) : Except (Error E) File :=
  parse env modfile filename false

/-- Go `(*File).DepVersions()`. -/
def File.DepVersions (f : File) : List Version := f.versions

/-- Go `(*File).DefaultMajorVersions()`. -/
def File.DefaultMajorVersions (f : File) : List (String × String) := f.defaultMajorVersions

/-! ## `ParseLegacy`, `Source.Validate` and `Format` -/

/-- Go `ParseLegacy(modfile, filename)`. -/
def ParseLegacy {Syntax Value E : Type} (env : Env Syntax Value E) (modfile filename : String) :
    Except (Error E) File :=
  let v := env.cue.CompileBytes modfile filename
  match env.cue.Err v with
  | some err => .error (.wrapf err "invalid module.cue file")
  | none =>
    match env.cue.DecodeNoDeps v with
    | .error err => .error (newCUEError env err filename)
    | .ok module =>
      .ok { Module := module, Language := none, Source := none, Deps := none,
            versions := [], defaultMajorVersions := [], actualSchemaVersion := "v0.0.0" }

/-- Go `(*Source).Validate()`; `none` is the nil error.  `quote` is the text that
the verb `%q` prints. -/
def Source.Validate {E : Type} (quote : String → String) (src : Source) : Option (Error E) :=
  if src.Kind = "git" ∨ src.Kind = "self" then none
  else some (.errorf ("unrecognized source kind " ++ quote src.Kind))

/-- Go `strings.TrimSuffix(s, suffix)`. -/
def trimSuffix (s suffix : String) : String :=
  if suffix.data.isSuffixOf s.data then
    String.mk (s.data.take (s.data.length - suffix.data.length))
  else s

/-- The exported fields of a file. -/
def File.fields (f : File) : FileFields :=
  { Module := f.Module, Language := f.Language, Source := f.Source, Deps := f.Deps }

/-- The first statement of `Format`: a file whose `Deps` is empty but not nil is
replaced by a copy whose `Deps` is nil. -/
def omitEmptyDeps (f : File) : File :=
  if f.Deps = some [] then { f with Deps := none } else f

/-- Go `(*File).Format()`. -/
def File.Format {Syntax Value E : Type} (env : Env Syntax Value E) (f0 : File) :
    Except (Error E) String :=
  let f := omitEmptyDeps f0
  let v := env.cue.Encode f.fields
  match env.cue.ValidateConcrete v with
  | some err => .error (.cue err)
  | none =>
    match env.cue.FormatNode v with
    | .error err => .error (.errorf ("cannot format: " ++ err))
    | .ok data =>
      match ParseNonStrict env data "-" with
      | .error err =>
        .error (.errorf ("cannot round-trip module file: " ++
          trimSuffix (env.details err) "\n"))
      | .ok f1 =>
        if f.Language ≠ none ∧ f1.actualSchemaVersion = "v0.0.0" then
          .error (.errorf ("language version " ++
            ((f.Language.map (fun l => l.Version)).getD "") ++
            " is too early for module.cue (need at least " ++
            EarliestClosedSchemaVersion env.semver env.cue.Versions ++ ")"))
        else .ok data

/-! ## The stages of `parse` -/

/-- Everything that `parse` does before the loop over `mf.Deps`.  The result is
the decoded file `mf` together with `mainPath`, `mainMajor` and the value of
`mf.Module` at the start of the loop. -/
def beforeDeps {Syntax Value E : Type} (env : Env Syntax Value E) (modfile filename : String)
    (strict : Bool) : Except (Error E) (File × String × String × String) :=
  match env.cue.ParseFile filename modfile with
  | .error err => .error (.wrapf err "invalid module.cue file syntax")
  | .ok file =>
    match decodeStage env file filename with
    | .error err => .error err
    | .ok mf =>
      match mainModule env mf.Module filename strict with
      | .error err => .error err
      | .ok (mainPath, mainMajor, module) =>
        match checkLanguage env mf.Language filename with
        | some err => .error err
        | none => .ok (mf, mainPath, mainMajor, module)

/-! ## The dependency loop in terms of its entries -/

/-- The module version that the loop of `parse` constructs for a dependency
entry: `module.NewVersion(m, dep.Version)`. -/
def depVersion {Syntax Value E : Type} (env : Env Syntax Value E) (entry : String × Dep) :
    Except String Version :=
  env.module.NewVersion entry.1 entry.2.Version

/-- The entry passes the two checks of the loop that come before the check for a
duplicate default: its module version can be constructed and, in strict mode, the
path of that version is the key of the entry. -/
def depOk {Syntax Value E : Type} (env : Env Syntax Value E) (strict : Bool)
    (entry : String × Dep) : Bool :=
  match depVersion env entry with
  | .ok v => !strict || decide (v.path = entry.1)
  | .error _ => false

/-- The default that an entry asks for: the base path of its module version and
the major version of its version, if the entry is marked default. -/
def defaultEntry {Syntax Value E : Type} (env : Env Syntax Value E) (entry : String × Dep) :
    Option (String × String) :=
  if entry.2.Default = true then
    match depVersion env entry with
    | .ok v => some (env.module.BasePath v, env.semver.Major v.version)
    | .error _ => none
  else none

/-- The defaults that the entries of a dependency map ask for, in the order of the
entries. -/
def defaultPairs {Syntax Value E : Type} (env : Env Syntax Value E)
    (deps : List (String × Dep)) : List (String × String) :=
  deps.filterMap (defaultEntry env)

/-- The module versions of the entries of a dependency map, in the order of the
entries. -/
def depVersionList {Syntax Value E : Type} (env : Env Syntax Value E)
    (deps : List (String × Dep)) : List Version :=
  deps.filterMap (fun entry => (depVersion env entry).toOption)

/-! ## What is assumed of the embedded schema text -/

/-- The first line of a text, without its line break. -/
def firstLine : List Char → List Char
  | [] => []
  | c :: rest => if c = '\n' then [] else c :: firstLine rest

/-! ## What the round-trip law assumes of the engine and of `module` -/

/-- The CUE engine reads back the text `data` that it printed for the fields `x`:
whatever file name the text is parsed under, the language version decoded from it
is the one of `x` (the empty string if `x` has none), and when the parsed value is
valid against the schema that `parse` selects from the catalog for that language
version, the full decode of the value unified with that schema gives `x`. -/
structure ReadsBack {Syntax Value E : Type} (env : Env Syntax Value E) (x : FileFields)
    (data : String) : Prop where
  base : ∀ (filename : String) (file : Syntax) (ver : String),
    env.cue.ParseFile filename data = .ok file →
    env.cue.DecodeBase (env.cue.BuildFile file) = .ok ver →
    ver = (x.Language.map (fun l => l.Version)).getD ""
  full : ∀ (filename : String) (file : Syntax) (latest : String) (schema : Value)
      (y : FileFields),
    env.cue.ParseFile filename data = .ok file →
    selectSchema env.semver ((x.Language.map (fun l => l.Version)).getD "")
      env.cue.zeroValue env.cue.Versions = some (latest, schema) →
    env.cue.Validate
      (env.cue.Unify (env.cue.BuildFile file) (env.cue.LookupFile schema)) = none →
    env.cue.DecodeFile
      (env.cue.Unify (env.cue.BuildFile file) (env.cue.LookupFile schema)) = .ok y →
    y = x

/-- A valid bare path followed by `@v0` is a path with a major version. -/
def ModulePkg.SplitsDefaultMajor (mp : ModulePkg) : Prop :=
  ∀ p : String, mp.CheckPathWithoutVersion p = none →
    (mp.SplitPathVersion (p ++ "@v0")).2.2 = true

/-! ## What is assumed of `semver.Compare` -/

/-- The properties of `semver.Compare` that the theorems use: swapping the
arguments negates the result, `≤` is transitive, and the empty string (which is
not a valid version) is below every string. -/
structure Semver.Ordered (sv : Semver) : Prop where
  swap : ∀ a b, sv.Compare b a = - sv.Compare a b
  trans : ∀ a b c, sv.Compare a b ≤ 0 → sv.Compare b c ≤ 0 → sv.Compare a c ≤ 0
  emptyLeast : ∀ a, sv.Compare "" a ≤ 0

/-- The invariant of the selector loop after the entries `seen`: while `latest`
is empty no non-empty key of `seen` is applicable, and afterwards
`(latest, latestSchema)` is an applicable entry of `seen` that no applicable key
of `seen` exceeds. -/
def SelectInv {Value : Type} (sv : Semver) (declared : String)
    (seen : List (String × Value)) (st : String × Value) : Prop :=
  (st.1 = "" → ∀ k ∈ seen.map Prod.fst, sv.Compare k declared ≤ 0 → k = "") ∧
  (st.1 ≠ "" → st ∈ seen ∧ sv.Compare st.1 declared ≤ 0 ∧
    ∀ k ∈ seen.map Prod.fst, sv.Compare k declared ≤ 0 → sv.Compare k st.1 ≤ 0)

/-- The invariant of `earliest` in the loop of `schemaVersionLimits` after the
keys `seen`: it is empty only before the first key, and afterwards it is a key of
`seen` that is at most every key of `seen`. -/
def EarliestInv (sv : Semver) (seen : List String) (earliest : String) : Prop :=
  (earliest = "" → seen = []) ∧
  (earliest ≠ "" → earliest ∈ seen ∧ ∀ k ∈ seen, sv.Compare earliest k ≤ 0)

/-- The invariant of `latest` in the loop of `schemaVersionLimits` after the keys
`seen`: while it is empty every key of `seen` is empty, and afterwards it is a key
of `seen` that is at least every key of `seen`. -/
def LatestInv (sv : Semver) (seen : List String) (latest : String) : Prop :=
  (latest = "" → ∀ k ∈ seen, k = "") ∧
  (latest ≠ "" → latest ∈ seen ∧ ∀ k ∈ seen, sv.Compare k latest ≤ 0)

/-! ## A concrete environment

The theorems below are stated for every environment.  To apply them to concrete
inputs, this section gives one small environment: semantic versions without
pre-release and build parts, module paths of the form `base@vN`, and an engine
whose documents are already decoded. -/

namespace Ref

/-- The decimal value of a list of digits. -/
def natOfDigits (ds : List Char) : Nat :=
  ds.foldl (fun n c => 10 * n + (c.toNat - 48)) 0

/-- A number of a semantic version: digits only, no leading zero. -/
def isNumber (ds : List Char) : Bool :=
  !ds.isEmpty && ds.all (fun c => decide (48 ≤ c.toNat ∧ c.toNat ≤ 57)) &&
    (decide (ds.length = 1) || !(ds.head? == some '0'))

/-- The fields of a string separated by the character `sep`. -/
def splitChar (sep : Char) : List Char → List (List Char)
  | [] => [[]]
  | c :: cs =>
    if c = sep then [] :: splitChar sep cs
    else
      match splitChar sep cs with
      | [] => [[c]]
      | f :: fs => (c :: f) :: fs

/-- The numbers `major, minor, patch` of a version `vMAJOR[.MINOR[.PATCH]]`, as
digit lists; `none` for every other string. -/
def fields (v : String) : Option (List Char × List Char × List Char) :=
  match v.data with
  | 'v' :: rest =>
    match splitChar '.' rest with
    | [a] => if isNumber a then some (a, ['0'], ['0']) else none
    | [a, b] => if isNumber a && isNumber b then some (a, b, ['0']) else none
    | [a, b, c] => if isNumber a && isNumber b && isNumber c then some (a, b, c) else none
    | _ => none
  | _ => none

/-- The position of a version in the order: `0` for an invalid version, and the
numbers (the first one shifted by one) for a valid one. -/
def key (v : String) : Nat × Nat × Nat :=
  match fields v with
  | none => (0, 0, 0)
  | some (a, b, c) => (natOfDigits a + 1, natOfDigits b, natOfDigits c)

/-- The lexicographic comparison of two keys, with the results of
`semver.Compare`. -/
def compareKey (x y : Nat × Nat × Nat) : Int :=
  if x.1 < y.1 then -1 else if y.1 < x.1 then 1
  else if x.2.1 < y.2.1 then -1 else if y.2.1 < x.2.1 then 1
  else if x.2.2 < y.2.2 then -1 else if y.2.2 < x.2.2 then 1
  else 0

/-- Modelled from the spec: the package `semver` ("standard semantic-version
ordering"), restricted to versions without pre-release and build parts; an
invalid version is below every valid one. -/
def semver : Semver where
  Compare := fun v w => compareKey (key v) (key w)
  IsValid := fun v => (fields v).isSome
  Major := fun v =>
    match fields v with
    | none => ""
    | some (a, _, _) => String.mk ('v' :: a)
  Canonical := fun v =>
    match fields v with
    | none => ""
    | some (a, b, c) => String.mk ('v' :: a ++ '.' :: b ++ '.' :: c)

/-- The text before and after the last `@` of a path. -/
def splitAt (path : String) : Option (String × String) :=
  match lastIndex path.data ['@'] with
  | none => none
  | some i => some (String.mk (path.data.take i), String.mk (path.data.drop (i + 1)))

/-- Modelled from the spec: `module.SplitPathVersion` ("split the declared module
path into a base path and an optional major-version suffix"). -/
def SplitPathVersion (path : String) : String × String × Bool :=
  match splitAt path with
  | none => ("", "", false)
  | some (base, vers) =>
    if base ≠ "" ∧ semver.IsValid vers = true then (base, vers, true) else ("", "", false)

/-- Modelled from the spec: `module.CheckPathWithoutVersion` ("validate the bare
path syntax"): a bare path is not empty and has no `@`. -/
def CheckPathWithoutVersion (path : String) : Option String :=
  if path = "" ∨ '@' ∈ path.data then some "malformed module path" else none

/-- Modelled from the spec: `module.NewVersion` ("construct a module version from
(path, declared version string); any malformed module/version combination
fails"). -/
def NewVersion (path version : String) : Except String Version :=
  if semver.Canonical version ≠ version then .error "version is not canonical"
  else
    let split := SplitPathVersion path
    if split.2.2 = true then
      if semver.Major version ≠ split.2.1 then .error "mismatched major version suffix"
      else .ok { path := path, version := version }
    else
      match CheckPathWithoutVersion path with
      | some err => .error err
      | none => .ok { path := path ++ "@" ++ semver.Major version, version := version }

/-- Modelled from the spec: the package `module` ("base path: a module path with
its major-version suffix removed"). -/
def module : ModulePkg where
  SplitPathVersion := SplitPathVersion
  CheckPathWithoutVersion := CheckPathWithoutVersion
  NewVersion := NewVersion
  BasePath := fun v => if (SplitPathVersion v.path).2.2 = true then (SplitPathVersion v.path).1
    else v.path

/-- An engine whose only document is `doc`, already decoded: every text parses to
it, every validation succeeds and `catalog` are the keys of the schema catalog. -/
def engine (doc : FileFields) (catalog : List String) (languageVersion : String) :
    Engine FileFields FileFields String where
  ParseFile := fun _ _ => .ok doc
  BuildFile := fun file => file
  ValidateConcrete := fun _ => none
  DecodeBase := fun v => .ok ((v.Language.map (fun l => l.Version)).getD "")
  Versions := catalog.map (fun k => (k, doc))
  zeroValue := doc
  LookupFile := fun v => v
  Unify := fun v _ => v
  Validate := fun _ => none
  DecodeNoDeps := fun v => .ok v.Module
  DecodeFile := fun v => .ok v
  Positions := fun _ => []
  LanguageVersion := languageVersion
  CompileBytes := fun _ _ => doc
  Err := fun _ => none
  Encode := fun fields => fields
  FormatNode := fun v => .ok ("module: " ++ v.Module)

/-- The text of the verb `%q` for a string without special characters: the
string between double quotes. -/
def quote (s : String) : String := "\"" ++ s ++ "\""

/-- The environment made of `semver`, `module` and `engine`. -/
def env (doc : FileFields) (catalog : List String) (languageVersion : String)
    (schemaData : String) : Env FileFields FileFields String where
  semver := semver
  module := module
  cue := engine doc catalog languageVersion
  quote := quote
  moduleSchemaData := schemaData
  details := fun err =>
    match err with
    | .errorf msg => msg ++ "\n"
    | .wrapf e msg => msg ++ ": " ++ e ++ "\n"
    | .cue e => e ++ "\n"

/-- The keys of the schema catalog of the examples. -/
def catalog : List String := ["v0.0.0", "v0.8.0", "v0.9.0"]

/-- A document of language version `v0.9.0` with the given module path and
dependency map. -/
def doc (module : String) (deps : Option (List (String × Dep))) : FileFields :=
  { Module := module, Language := some { Version := "v0.9.0" }, Source := none, Deps := deps }

/-- A document that has only the module path. -/
def legacyDoc (module : String) : FileFields :=
  { Module := module, Language := none, Source := none, Deps := none }

/-- A document with the module path `m.com/x@v1` and the given language
version. -/
def docAt (version : String) : FileFields :=
  { Module := "m.com/x@v1", Language := some { Version := version }, Source := none,
    Deps := none }

/-- The environment of the examples: the catalog `catalog`, the language version
`v0.10.0` of the running system, and the document of `doc`. -/
def envOf (module : String) (deps : Option (List (String × Dep))) :
    Env FileFields FileFields String :=
  env (doc module deps) catalog "v0.10.0" ""

/-- The file that the decode stage returns for the document of `doc`. -/
def decoded (module : String) (deps : Option (List (String × Dep))) : File :=
  { Module := module, Language := some { Version := "v0.9.0" }, Source := none, Deps := deps,
    versions := [], defaultMajorVersions := [], actualSchemaVersion := "v0.9.0" }

/-- The text that the text engine prints for a dependency entry. -/
def printDep (entry : String × Dep) : String :=
  "\ndep: " ++ entry.1 ++ " " ++ entry.2.Version ++
    (if entry.2.Default = true then " default" else "")

/-- The text that the text engine prints for the fields of a file: one line for
each field that is present and one line for each dependency. -/
def printFields (x : FileFields) : String :=
  "module: " ++ x.Module ++
  (match x.Language with
    | some l => "\nlanguage: " ++ l.Version
    | none => "") ++
  (match x.Source with
    | some src => "\nsource: " ++ src.Kind
    | none => "") ++
  (match x.Deps with
    | some deps => "\ndeps:" ++ String.join (deps.map printDep)
    | none => "")

/-- The fields after one more line of text has been read. -/
def parseLine (x : FileFields) (line : List Char) : Except String FileFields :=
  if "module: ".data.isPrefixOf line then
    .ok { x with Module := String.mk (line.drop 8) }
  else if "language: ".data.isPrefixOf line then
    .ok { x with Language := some { Version := String.mk (line.drop 10) } }
  else if "source: ".data.isPrefixOf line then
    .ok { x with Source := some { Kind := String.mk (line.drop 8) } }
  else if line = "deps:".data then
    .ok { x with Deps := some (x.Deps.getD []) }
  else if "dep: ".data.isPrefixOf line then
    match splitChar ' ' (line.drop 5) with
    | [p, v] =>
      .ok { x with Deps := some (x.Deps.getD [] ++
              [(String.mk p, { Version := String.mk v, Default := false })]) }
    | [p, v, d] =>
      if d = "default".data then
        .ok { x with Deps := some (x.Deps.getD [] ++
                [(String.mk p, { Version := String.mk v, Default := true })]) }
      else .error "syntax error"
    | _ => .error "syntax error"
  else .error "syntax error"

/-- The fields after all lines have been read. -/
def parseLines : FileFields → List (List Char) → Except String FileFields
  | x, [] => .ok x
  | x, line :: rest =>
    match parseLine x line with
    | .error err => .error err
    | .ok y => parseLines y rest

/-- The parser of the text engine: it reads the text that `printFields` prints. -/
def parseText (text : String) : Except String FileFields :=
  parseLines (legacyDoc "") (splitChar '\n' text.data)

/-- An engine that prints the fields of a file as text and parses that text: the
document is what the text says.  Every validation succeeds and `catalog` are the
keys of the schema catalog. -/
def textEngine (catalog : List String) (languageVersion : String) :
    Engine FileFields FileFields String where
  ParseFile := fun _ text => parseText text
  BuildFile := fun file => file
  ValidateConcrete := fun _ => none
  DecodeBase := fun v => .ok ((v.Language.map (fun l => l.Version)).getD "")
  Versions := catalog.map (fun k => (k, legacyDoc ""))
  zeroValue := legacyDoc ""
  LookupFile := fun v => v
  Unify := fun v _ => v
  Validate := fun _ => none
  DecodeNoDeps := fun v => .ok v.Module
  DecodeFile := fun v => .ok v
  Positions := fun _ => []
  LanguageVersion := languageVersion
  CompileBytes := fun text _ =>
    match parseText text with
    | .ok x => x
    | .error _ => legacyDoc ""
  Err := fun _ => none
  Encode := fun fields => fields
  FormatNode := fun v => .ok (printFields v)

/-- The environment made of `semver`, `module` and `textEngine`, with the catalog
`catalog` and the language version `v0.10.0` of the running system. -/
def textEnv : Env FileFields FileFields String where
  semver := semver
  module := module
  cue := textEngine catalog "v0.10.0"
  quote := quote
  moduleSchemaData := ""
  details := fun err =>
    match err with
    | .errorf msg => msg ++ "\n"
    | .wrapf e msg => msg ++ ": " ++ e ++ "\n"
    | .cue e => e ++ "\n"

/-- An environment that reports the positions `ps` for every engine error. -/
def withPositions (e : Env FileFields FileFields String) (ps : List Pos) :
    Env FileFields FileFields String :=
  { e with cue := { e.cue with Positions := fun _ => ps } }

end Ref

end Modfile

namespace Modfile

/-! ## Theorems -/

theorem Semver.Ordered.refl {sv : Semver} (h : sv.Ordered) (a : String) :
    sv.Compare a a = 0 := by
  have := h.swap a a
  omega

theorem compareKey_swap (x y : Nat × Nat × Nat) :
    Ref.compareKey y x = - Ref.compareKey x y := by
  unfold Ref.compareKey
  split_ifs <;> omega

theorem compareKey_le_iff (x y : Nat × Nat × Nat) :
    Ref.compareKey x y ≤ 0 ↔
      (x.1 < y.1 ∨ (x.1 = y.1 ∧ (x.2.1 < y.2.1 ∨ (x.2.1 = y.2.1 ∧ x.2.2 ≤ y.2.2)))) := by
  unfold Ref.compareKey
  split_ifs <;> omega

theorem compareKey_trans (x y z : Nat × Nat × Nat)
    (h1 : Ref.compareKey x y ≤ 0) (h2 : Ref.compareKey y z ≤ 0) :
    Ref.compareKey x z ≤ 0 := by
  rw [compareKey_le_iff] at *
  omega

theorem compareKey_zero (y : Nat × Nat × Nat) : Ref.compareKey (0, 0, 0) y ≤ 0 := by
  rw [compareKey_le_iff]
  show 0 < y.1 ∨ (0 = y.1 ∧ (0 < y.2.1 ∨ (0 = y.2.1 ∧ 0 ≤ y.2.2)))
  omega

/-- The concrete `semver` has the assumed properties. -/
theorem Ref.semver_ordered : Ref.semver.Ordered where
  swap := fun a b => compareKey_swap (Ref.key a) (Ref.key b)
  trans := fun a b c => compareKey_trans (Ref.key a) (Ref.key b) (Ref.key c)
  emptyLeast := fun a => by
    show Ref.compareKey (Ref.key "") (Ref.key a) ≤ 0
    have : Ref.key "" = (0, 0, 0) := by decide
    rw [this]
    exact compareKey_zero _

theorem selectInv_step {Value : Type} (sv : Semver) (h : sv.Ordered) (declared : String)
    (seen : List (String × Value)) (st entry : String × Value)
    (inv : SelectInv sv declared seen st) :
    SelectInv sv declared (seen ++ [entry]) (selectStep sv declared st entry) := by
  obtain ⟨inv1, inv2⟩ := inv
  unfold selectStep
  by_cases hd : sv.Compare entry.1 declared > 0
  · -- the entry is too new for the declared version: `continue`
    rw [if_pos hd]
    refine ⟨fun h0 k hk hkd => ?_, fun h0 => ?_⟩
    · simp only [List.map_append, List.map_cons, List.map_nil, List.mem_append,
        List.mem_singleton] at hk
      rcases hk with hk | hk
      · exact inv1 h0 k hk hkd
      · subst hk; omega
    · obtain ⟨m, q, g⟩ := inv2 h0
      refine ⟨List.mem_append_left _ m, q, fun k hk hkd => ?_⟩
      simp only [List.map_append, List.map_cons, List.map_nil, List.mem_append,
        List.mem_singleton] at hk
      rcases hk with hk | hk
      · exact g k hk hkd
      · subst hk; omega
  · rw [if_neg hd]
    have hq : sv.Compare entry.1 declared ≤ 0 := by omega
    by_cases hc : st.1 = "" ∨ sv.Compare entry.1 st.1 > 0
    · -- the entry becomes the new `latest`
      rw [if_pos hc]
      have hprev : ∀ k ∈ seen.map Prod.fst, sv.Compare k declared ≤ 0 →
          sv.Compare k entry.1 ≤ 0 := by
        intro k hk hkd
        by_cases h0 : st.1 = ""
        · rw [inv1 h0 k hk hkd]; exact h.emptyLeast _
        · obtain ⟨_, _, g⟩ := inv2 h0
          have h1 := g k hk hkd
          have h2 : sv.Compare entry.1 st.1 > 0 := by
            rcases hc with hc | hc
            · exact absurd hc h0
            · exact hc
          have h3 := h.swap entry.1 st.1
          exact h.trans k st.1 entry.1 h1 (by omega)
      refine ⟨fun h0 k hk hkd => ?_, fun _ => ⟨by simp, hq, fun k hk _ => ?_⟩⟩
      · simp only [List.map_append, List.map_cons, List.map_nil, List.mem_append,
          List.mem_singleton] at hk
        rcases hk with hk | hk
        · by_cases h1 : st.1 = ""
          · exact inv1 h1 k hk hkd
          · exfalso
            have h2 : sv.Compare entry.1 st.1 > 0 := by
              rcases hc with hc | hc
              · exact absurd hc h1
              · exact hc
            have h3 : entry.1 = "" := h0
            rw [h3] at h2
            have := h.emptyLeast st.1
            omega
        · rw [hk]; exact h0
      · simp only [List.map_append, List.map_cons, List.map_nil, List.mem_append,
          List.mem_singleton] at hk
        rcases hk with hk | hk
        · exact hprev k hk (by assumption)
        · rw [hk]; exact le_of_eq (h.refl _)
    · -- `latest` stays
      rw [if_neg hc]
      have h0 : st.1 ≠ "" := fun e => hc (Or.inl e)
      have hle : sv.Compare entry.1 st.1 ≤ 0 := by
        have : ¬ sv.Compare entry.1 st.1 > 0 := fun e => hc (Or.inr e)
        omega
      refine ⟨fun e => absurd e h0, fun _ => ?_⟩
      obtain ⟨m, q, g⟩ := inv2 h0
      refine ⟨List.mem_append_left _ m, q, fun k hk hkd => ?_⟩
      simp only [List.map_append, List.map_cons, List.map_nil, List.mem_append,
        List.mem_singleton] at hk
      rcases hk with hk | hk
      · exact g k hk hkd
      · rw [hk]; exact hle

theorem selectInv_foldl {Value : Type} (sv : Semver) (h : sv.Ordered) (declared : String)
    (rest seen : List (String × Value)) (st : String × Value)
    (inv : SelectInv sv declared seen st) :
    SelectInv sv declared (seen ++ rest) (rest.foldl (selectStep sv declared) st) := by
  induction rest generalizing seen st with
  | nil => simpa using inv
  | cons e rest ih =>
    have := ih (seen ++ [e]) _ (selectInv_step sv h declared seen st e inv)
    simpa using this

theorem selectInv_loop {Value : Type} (sv : Semver) (h : sv.Ordered) (declared : String)
    (zero : Value) (versions : List (String × Value)) :
    SelectInv sv declared versions (selectLoop sv declared zero versions) := by
  have := selectInv_foldl sv h declared versions [] ("", zero)
    ⟨fun _ k hk => by simp at hk, fun h0 => absurd rfl h0⟩
  simpa [selectLoop] using this

/-- C1: for every schema catalog whose keys are version strings (valid semantic
versions) and every declared language version, if some catalog key is at most the
declared version, the version selector of `parse` returns an entry
`(latest, schema)` of the catalog with `latest ≤ declared` that is at least every
catalog key that is at most the declared version. -/
theorem selectSchema_greatest {Value : Type} (sv : Semver) (h : sv.Ordered)
    (hempty : sv.IsValid "" = false)
    (declared : String) (zero : Value) (versions : List (String × Value))
    (hkeys : ∀ k ∈ versions.map Prod.fst, sv.IsValid k = true)
    (k : String) (hk : k ∈ versions.map Prod.fst)
    (hkd : sv.Compare k declared ≤ 0) :
    ∃ latest schema,
      selectSchema sv declared zero versions = some (latest, schema) ∧
      (latest, schema) ∈ versions ∧
      sv.Compare latest declared ≤ 0 ∧
      ∀ k1 ∈ versions.map Prod.fst, sv.Compare k1 declared ≤ 0 →
        sv.Compare latest k1 ≥ 0 := by
  have hne : k ≠ "" := by
    intro e
    have := hkeys k hk
    rw [e, hempty] at this
    exact Bool.false_ne_true this
  obtain ⟨inv1, inv2⟩ := selectInv_loop sv h declared zero versions
  have h0 : (selectLoop sv declared zero versions).1 ≠ "" :=
    fun e => hne (inv1 e k hk hkd)
  obtain ⟨m, q, g⟩ := inv2 h0
  refine ⟨(selectLoop sv declared zero versions).1, (selectLoop sv declared zero versions).2,
    ?_, m, q, fun k1 hk1 hk1d => ?_⟩
  · simp [selectSchema, h0]
  · have h1 := g k1 hk1 hk1d
    have h2 := h.swap k1 (selectLoop sv declared zero versions).1
    omega

/-- C1, an instance of `selectSchema_greatest`: with the catalog keys `v0.9.0`,
`v0.0.0`, `v0.8.0`, visited in this order, and the declared version `v0.8.5` the
selected entry is the one of `v0.8.0`. -/
theorem selectSchema_greatest_witness :
    selectSchema Ref.semver "v0.8.5" 0 [("v0.9.0", 3), ("v0.0.0", 1), ("v0.8.0", 2)] =
      some ("v0.8.0", 2) ∧
    ∃ latest schema,
      selectSchema Ref.semver "v0.8.5" 0 [("v0.9.0", 3), ("v0.0.0", 1), ("v0.8.0", 2)] =
        some (latest, schema) ∧
      (latest, schema) ∈ [("v0.9.0", 3), ("v0.0.0", 1), ("v0.8.0", 2)] ∧
      Ref.semver.Compare latest "v0.8.5" ≤ 0 ∧
      ∀ k1 ∈ [("v0.9.0", 3), ("v0.0.0", 1), ("v0.8.0", 2)].map Prod.fst,
        Ref.semver.Compare k1 "v0.8.5" ≤ 0 → Ref.semver.Compare latest k1 ≥ 0 :=
  ⟨by decide,
   selectSchema_greatest Ref.semver Ref.semver_ordered (by decide) "v0.8.5" 0
    [("v0.9.0", 3), ("v0.0.0", 1), ("v0.8.0", 2)] (by decide) "v0.8.0" (by decide)
    (by decide)⟩

theorem earliestInv_foldl (sv : Semver) (h : sv.Ordered) (rest seen : List String)
    (st : String × String) (hne : ∀ k ∈ rest, k ≠ "") (inv : EarliestInv sv seen st.1) :
    EarliestInv sv (seen ++ rest) (rest.foldl (limitsStep sv) st).1 := by
  induction rest generalizing seen st with
  | nil => simpa using inv
  | cons v rest ih =>
    have hv : v ≠ "" := hne v (by simp)
    have step : EarliestInv sv (seen ++ [v]) (limitsStep sv st v).1 := by
      obtain ⟨inv1, inv2⟩ := inv
      unfold limitsStep
      by_cases hc : st.1 = "" ∨ sv.Compare v st.1 < 0
      · simp only [if_pos hc]
        refine ⟨fun e => absurd e hv, fun _ => ⟨by simp, fun k hk => ?_⟩⟩
        simp only [List.mem_append, List.mem_singleton] at hk
        rcases hk with hk | hk
        · by_cases h0 : st.1 = ""
          · rw [inv1 h0] at hk; simp at hk
          · have h1 := (inv2 h0).2 k hk
            have h2 : sv.Compare v st.1 < 0 := by
              rcases hc with hc | hc
              · exact absurd hc h0
              · exact hc
            exact h.trans v st.1 k (by omega) h1
        · rw [hk]; exact le_of_eq (h.refl _)
      · simp only [if_neg hc]
        have h0 : st.1 ≠ "" := fun e => hc (Or.inl e)
        have hge : ¬ sv.Compare v st.1 < 0 := fun e => hc (Or.inr e)
        refine ⟨fun e => absurd e h0, fun _ => ⟨List.mem_append_left _ (inv2 h0).1,
          fun k hk => ?_⟩⟩
        simp only [List.mem_append, List.mem_singleton] at hk
        rcases hk with hk | hk
        · exact (inv2 h0).2 k hk
        · rw [hk]
          have := h.swap v st.1
          omega
    have := ih (seen ++ [v]) (limitsStep sv st v)
      (fun k hk => hne k (List.mem_cons_of_mem _ hk)) step
    simpa using this

theorem latestInv_foldl (sv : Semver) (h : sv.Ordered) (rest seen : List String)
    (st : String × String) (inv : LatestInv sv seen st.2) :
    LatestInv sv (seen ++ rest) (rest.foldl (limitsStep sv) st).2 := by
  induction rest generalizing seen st with
  | nil => simpa using inv
  | cons v rest ih =>
    have step : LatestInv sv (seen ++ [v]) (limitsStep sv st v).2 := by
      obtain ⟨inv1, inv2⟩ := inv
      unfold limitsStep
      by_cases hc : st.2 = "" ∨ sv.Compare v st.2 > 0
      · simp only [if_pos hc]
        have hold : st.2 ≠ "" → sv.Compare v st.2 > 0 := by
          intro h0
          rcases hc with hc | hc
          · exact absurd hc h0
          · exact hc
        refine ⟨fun e k hk => ?_, fun _ => ⟨by simp, fun k hk => ?_⟩⟩
        · simp only [List.mem_append, List.mem_singleton] at hk
          rcases hk with hk | hk
          · by_cases h0 : st.2 = ""
            · exact inv1 h0 k hk
            · exfalso
              have h1 := hold h0
              rw [e] at h1
              have := h.emptyLeast st.2
              omega
          · rw [hk]; exact e
        · simp only [List.mem_append, List.mem_singleton] at hk
          rcases hk with hk | hk
          · by_cases h0 : st.2 = ""
            · rw [inv1 h0 k hk]; exact h.emptyLeast _
            · have h1 := (inv2 h0).2 k hk
              have h2 := hold h0
              have h3 := h.swap v st.2
              exact h.trans k st.2 v h1 (by omega)
          · rw [hk]; exact le_of_eq (h.refl _)
      · simp only [if_neg hc]
        have h0 : st.2 ≠ "" := fun e => hc (Or.inl e)
        have hle : ¬ sv.Compare v st.2 > 0 := fun e => hc (Or.inr e)
        refine ⟨fun e => absurd e h0, fun _ => ⟨List.mem_append_left _ (inv2 h0).1,
          fun k hk => ?_⟩⟩
        simp only [List.mem_append, List.mem_singleton] at hk
        rcases hk with hk | hk
        · exact (inv2 h0).2 k hk
        · rw [hk]; omega
    have := ih (seen ++ [v]) (limitsStep sv st v) step
    simpa using this

/-- C8: for every non-empty schema catalog whose keys are version strings (valid
semantic versions), `EarliestClosedSchemaVersion()` is a catalog key that is at
most every catalog key and `LatestKnownSchemaVersion()` is a catalog key that is
at least every catalog key. -/
theorem schemaVersionLimits_spec {Value : Type} (sv : Semver) (h : sv.Ordered)
    (hempty : sv.IsValid "" = false)
    (versions : List (String × Value))
    (hvalid : ∀ k ∈ versions.map Prod.fst, sv.IsValid k = true)
    (hne : versions ≠ []) :
    (EarliestClosedSchemaVersion sv versions ∈ versions.map Prod.fst ∧
      ∀ k ∈ versions.map Prod.fst,
        sv.Compare (EarliestClosedSchemaVersion sv versions) k ≤ 0) ∧
    (LatestKnownSchemaVersion sv versions ∈ versions.map Prod.fst ∧
      ∀ k ∈ versions.map Prod.fst,
        sv.Compare (LatestKnownSchemaVersion sv versions) k ≥ 0) := by
  have hkeys : versions.map Prod.fst ≠ [] := by simpa using hne
  have hnonempty : ∀ k ∈ versions.map Prod.fst, k ≠ "" := by
    intro k hk e
    have := hvalid k hk
    rw [e, hempty] at this
    exact Bool.false_ne_true this
  constructor
  · have inv : EarliestInv sv (versions.map Prod.fst)
        (EarliestClosedSchemaVersion sv versions) := by
      have := earliestInv_foldl sv h (versions.map Prod.fst) [] ("", "") hnonempty
        ⟨fun _ => rfl, fun h0 => absurd rfl h0⟩
      simpa [EarliestClosedSchemaVersion, schemaVersionLimits] using this
    obtain ⟨inv1, inv2⟩ := inv
    have h0 : EarliestClosedSchemaVersion sv versions ≠ "" := fun e => hkeys (inv1 e)
    exact inv2 h0
  · have inv : LatestInv sv (versions.map Prod.fst) (LatestKnownSchemaVersion sv versions) := by
      have := latestInv_foldl sv h (versions.map Prod.fst) [] ("", "")
        ⟨fun _ k hk => by simp at hk, fun h0 => absurd rfl h0⟩
      simpa [LatestKnownSchemaVersion, schemaVersionLimits] using this
    obtain ⟨inv1, inv2⟩ := inv
    have h0 : LatestKnownSchemaVersion sv versions ≠ "" := by
      intro e
      obtain ⟨k, hk⟩ := List.exists_mem_of_ne_nil _ hkeys
      exact hnonempty k hk (inv1 e k hk)
    obtain ⟨m, g⟩ := inv2 h0
    refine ⟨m, fun k hk => ?_⟩
    have h1 := g k hk
    have h2 := h.swap k (LatestKnownSchemaVersion sv versions)
    omega

/-- C8, an instance of `schemaVersionLimits_spec`: for the catalog keys `v0.8.0`,
`v0.0.0`, `v0.9.0`, visited in this order, the earliest version is `v0.0.0` and the
latest is `v0.9.0`. -/
theorem schemaVersionLimits_spec_witness :
    EarliestClosedSchemaVersion Ref.semver [("v0.8.0", 2), ("v0.0.0", 1), ("v0.9.0", 3)] =
      "v0.0.0" ∧
    LatestKnownSchemaVersion Ref.semver [("v0.8.0", 2), ("v0.0.0", 1), ("v0.9.0", 3)] =
      "v0.9.0" ∧
    (∀ k ∈ [("v0.8.0", 2), ("v0.0.0", 1), ("v0.9.0", 3)].map Prod.fst,
      Ref.semver.Compare
        (EarliestClosedSchemaVersion Ref.semver [("v0.8.0", 2), ("v0.0.0", 1), ("v0.9.0", 3)])
        k ≤ 0) ∧
    (∀ k ∈ [("v0.8.0", 2), ("v0.0.0", 1), ("v0.9.0", 3)].map Prod.fst,
      Ref.semver.Compare
        (LatestKnownSchemaVersion Ref.semver [("v0.8.0", 2), ("v0.0.0", 1), ("v0.9.0", 3)])
        k ≥ 0) :=
  ⟨by decide, by decide,
    (schemaVersionLimits_spec Ref.semver Ref.semver_ordered (by decide)
      [("v0.8.0", 2), ("v0.0.0", 1), ("v0.9.0", 3)] (by decide) (by decide)).1.2,
    (schemaVersionLimits_spec Ref.semver Ref.semver_ordered (by decide)
      [("v0.8.0", 2), ("v0.0.0", 1), ("v0.9.0", 3)] (by decide) (by decide)).2.2⟩

theorem lastIndex_not_mem (c : Char) (s : List Char) (h : c ∉ s) :
    lastIndex s [c] = none := by
  induction s with
  | nil => simp [lastIndex]
  | cons x t ih =>
    have hx : c ≠ x := fun e => h (by simp [e])
    have ht : c ∉ t := fun e => h (List.mem_cons_of_mem _ e)
    simp [lastIndex, ih ht, List.isPrefixOf, hx]

theorem lastIndex_append (c : Char) (a b : List Char) (h : c ∉ b) :
    lastIndex (a ++ c :: b) [c] = some a.length := by
  induction a with
  | nil => simp [lastIndex, lastIndex_not_mem c b h, List.isPrefixOf]
  | cons x a ih => simp [lastIndex, ih]

theorem cutLast_newline (a b : List Char) (h : '\n' ∉ b) :
    cutLast (String.mk (a ++ '\n' :: b)) "\n" = (String.mk a, String.mk b, true) := by
  have hsep : ("\n" : String).data = ['\n'] := rfl
  simp [cutLast, hsep, lastIndex_append '\n' a b h, List.take_left, List.drop_append]

theorem cutLast_no_newline (a : List Char) (h : '\n' ∉ a) :
    cutLast (String.mk a) "\n" = ("", String.mk a, false) := by
  have hsep : ("\n" : String).data = ['\n'] := rfl
  simp [cutLast, hsep, lastIndex_not_mem '\n' a h]

theorem findErrorComment_prev_line (source : String) (p : Pos)
    (pre line cur rest : List Char) (hf : p.Filename = schemaFile)
    (hs : source.data = pre ++ '\n' :: (line ++ '\n' :: (cur ++ rest)))
    (hl : '\n' ∉ line) (hc : '\n' ∉ cur)
    (ho : p.Offset = pre.length + 1 + line.length + 1 + cur.length) :
    findErrorComment source p =
      if "//error: ".data <+: line then String.mk (line.drop "//error: ".data.length)
      else "" := by
  have htake : source.data.take p.Offset = (pre ++ '\n' :: line) ++ '\n' :: cur := by
    have e : source.data = ((pre ++ '\n' :: line) ++ '\n' :: cur) ++ rest := by
      rw [hs]; simp
    have hlen : p.Offset = ((pre ++ '\n' :: line) ++ '\n' :: cur).length := by
      rw [ho]; simp; omega
    rw [e, hlen, List.take_left]
  have hle : ¬ p.Offset > source.data.length := by
    rw [hs, ho]; simp; omega
  have c1 := cutLast_newline (pre ++ '\n' :: line) cur hc
  have c2 := cutLast_newline pre line hl
  unfold findErrorComment
  simp only [hf, ne_eq, not_true_eq_false, if_false, hle, htake, c1, c2]
  by_cases hp : "//error: ".data <+: line
  · simp [cutPrefix, hp]
  · simp [cutPrefix, hp]

theorem findErrorComment_second_line (source : String) (p : Pos)
    (line cur rest : List Char)
    (hs : source.data = line ++ '\n' :: (cur ++ rest))
    (hl : '\n' ∉ line) (hc : '\n' ∉ cur)
    (ho : p.Offset = line.length + 1 + cur.length) :
    findErrorComment source p = "" := by
  have htake : source.data.take p.Offset = line ++ '\n' :: cur := by
    have e : source.data = (line ++ '\n' :: cur) ++ rest := by
      rw [hs]; simp
    have hlen : p.Offset = (line ++ '\n' :: cur).length := by
      rw [ho]; simp; omega
    rw [e, hlen, List.take_left]
  have c1 := cutLast_newline line cur hc
  have c2 := cutLast_no_newline line hl
  unfold findErrorComment
  simp only [htake, c1, c2]
  simp

theorem findErrorComment_first_line (source : String) (p : Pos)
    (cur rest : List Char) (hs : source.data = cur ++ rest) (hc : '\n' ∉ cur)
    (ho : p.Offset = cur.length) :
    findErrorComment source p = "" := by
  have htake : source.data.take p.Offset = cur := by
    rw [hs, ho, List.take_left]
  have c1 := cutLast_no_newline cur hc
  unfold findErrorComment
  simp only [htake, c1]
  simp

theorem firstLine_append (line rest : List Char) (h : '\n' ∉ line) :
    firstLine (line ++ '\n' :: rest) = line := by
  induction line with
  | nil => simp [firstLine]
  | cons c line ih =>
    have hc : c ≠ '\n' := fun e => h (by simp [e])
    have hl : '\n' ∉ line := fun e => h (List.mem_cons_of_mem _ e)
    simp [firstLine, hc, ih hl]

/-- C10: let the first line of the embedded schema text not be an annotation
`//error: ...`.  Then for every position of the schema file whose offset lies in
the text: if the line `line` before the line that contains the offset is
`//error: msg`, `findErrorComment` returns exactly `msg`, and if `line` does not
start with `//error: ` it returns the empty string.  It also returns the empty
string for a position in another file, for an offset past the end of the text and
for a position on the first line. -/
theorem findErrorComment_spec (source : String)
    (hfirst : ¬ "//error: ".data <+: firstLine source.data) (p : Pos) :
    (p.Filename ≠ schemaFile → findErrorComment source p = "") ∧
    (p.Offset > source.data.length → findErrorComment source p = "") ∧
    (∀ before line cur rest : List Char, p.Filename = schemaFile →
      source.data = before ++ (line ++ '\n' :: (cur ++ rest)) →
      (before = [] ∨ ∃ pre, before = pre ++ ['\n']) →
      '\n' ∉ line → '\n' ∉ cur →
      p.Offset = before.length + line.length + 1 + cur.length →
      (∀ msg : List Char, line = "//error: ".data ++ msg →
        findErrorComment source p = String.mk msg) ∧
      (¬ "//error: ".data <+: line → findErrorComment source p = "")) ∧
    (∀ cur rest : List Char, source.data = cur ++ rest → '\n' ∉ cur →
      p.Offset = cur.length → findErrorComment source p = "") := by
  refine ⟨fun hf => ?_, fun ho => ?_, fun before line cur rest hf hs hb hl hc ho => ?_,
    fun cur rest hs hc ho => findErrorComment_first_line source p cur rest hs hc ho⟩
  · simp [findErrorComment, hf]
  · unfold findErrorComment
    by_cases hf : p.Filename ≠ schemaFile
    · simp [hf]
    · simp only [hf, if_false, if_pos ho]
  · rcases hb with hb | ⟨pre, hb⟩
    · -- `line` is the first line of the text, which is not an annotation
      subst hb
      simp only [List.nil_append, List.length_nil, Nat.zero_add] at hs ho
      have hline : firstLine source.data = line := by
        rw [hs]; exact firstLine_append line (cur ++ rest) hl
      rw [hline] at hfirst
      refine ⟨fun msg hmsg => ?_, fun _ =>
        findErrorComment_second_line source p line cur rest hs hl hc ho⟩
      exact absurd ⟨msg, hmsg.symm⟩ hfirst
    · subst hb
      have hs' : source.data = pre ++ '\n' :: (line ++ '\n' :: (cur ++ rest)) := by
        rw [hs]; simp
      have ho' : p.Offset = pre.length + 1 + line.length + 1 + cur.length := by
        rw [ho]; simp
      refine ⟨fun msg hmsg => ?_, fun hnp => ?_⟩
      · rw [findErrorComment_prev_line source p pre line cur rest hf hs' hl hc ho', hmsg]
        simp
      · rw [findErrorComment_prev_line source p pre line cur rest hf hs' hl hc ho']
        simp [hnp]

/-- C10, an instance of `findErrorComment_spec`: in the schema text
`x: 1⏎//error: bad⏎foo: int⏎`, whose first line is not an annotation, the offset
20 (inside `foo`) yields `bad`. -/
theorem findErrorComment_spec_witness :
    findErrorComment "x: 1\n//error: bad\nfoo: int\n" { Filename := schemaFile, Offset := 20 } =
      "bad" :=
  ((findErrorComment_spec "x: 1\n//error: bad\nfoo: int\n" (by decide)
      { Filename := schemaFile, Offset := 20 }).2.2.1
    "x: 1\n".data "//error: bad".data "fo".data "o: int\n".data rfl rfl
    (Or.inr ⟨"x: 1".data, rfl⟩) (by decide) (by decide) rfl).1 "bad".data rfl

/-- C9: `newCUEError` returns the error unchanged if no reported position has a
non-empty annotation; otherwise, for the first reported position `p` with a
non-empty annotation, it returns the error with the message
`invalid module.cue file: ` followed by the annotation of `p`. -/
theorem newCUEError_spec {Syntax Value E : Type} (env : Env Syntax Value E) (err : E)
    (filename : String) :
    ((∀ p ∈ env.cue.Positions err, findErrorComment env.moduleSchemaData p = "") →
      newCUEError env err filename = Error.cue err) ∧
    (∀ (pre post : List Pos) (p : Pos), env.cue.Positions err = pre ++ p :: post →
      (∀ q ∈ pre, findErrorComment env.moduleSchemaData q = "") →
      findErrorComment env.moduleSchemaData p ≠ "" →
      newCUEError env err filename =
        Error.errorf ("invalid module.cue file: " ++ findErrorComment env.moduleSchemaData p)) := by
  unfold newCUEError
  generalize env.cue.Positions err = ps
  constructor
  · intro hall
    induction ps with
    | nil => rfl
    | cons q ps ih =>
      have hq := hall q (by simp)
      simp only [newCUEErrorLoop, hq, ne_eq, not_true_eq_false, if_false]
      exact ih (fun r hr => hall r (List.mem_cons_of_mem _ hr))
  · intro pre post p hps hpre hp
    subst hps
    induction pre with
    | nil => simp [newCUEErrorLoop, hp]
    | cons q pre ih =>
      have hq := hpre q (by simp)
      simp only [List.cons_append, newCUEErrorLoop, hq, ne_eq, not_true_eq_false, if_false]
      exact ih (fun r hr => hpre r (List.mem_cons_of_mem _ hr))

/-! ### The dependency loop -/

theorem mapGet_isSome_iff (m : List (String × String)) (k : String) :
    (mapGet m k).isSome = true ↔ k ∈ m.map Prod.fst := by
  induction m with
  | nil => simp [mapGet]
  | cons x m ih =>
    obtain ⟨k1, v1⟩ := x
    by_cases hk : k1 = k
    · simp [mapGet, hk]
    · have hk2 : ¬ k = k1 := fun e => hk e.symm
      simp [mapGet, hk, hk2, ih]

theorem mapSet_absent (m : List (String × String)) (k v : String)
    (h : k ∉ m.map Prod.fst) : mapSet m k v = m ++ [(k, v)] := by
  induction m with
  | nil => simp [mapSet]
  | cons x m ih =>
    obtain ⟨k1, v1⟩ := x
    have hk : ¬ k1 = k := fun e => h (by simp [e])
    have hm : k ∉ m.map Prod.fst := fun e => h (by simp at e ⊢; exact Or.inr e)
    simp [mapSet, hk, ih hm]

theorem mapGet_append_left (m n : List (String × String)) (k v : String)
    (h : mapGet m k = some v) : mapGet (m ++ n) k = some v := by
  induction m with
  | nil => simp [mapGet] at h
  | cons x m ih =>
    obtain ⟨k1, v1⟩ := x
    by_cases hk : k1 = k
    · simp [mapGet, hk] at h ⊢; exact h
    · simp [mapGet, hk] at h ⊢; exact ih h

theorem depOk_iff {Syntax Value E : Type} (env : Env Syntax Value E) (strict : Bool)
    (entry : String × Dep) :
    depOk env strict entry = true ↔
      ∃ v, depVersion env entry = .ok v ∧ (strict = true → v.path = entry.1) := by
  unfold depOk
  cases hv : depVersion env entry with
  | error e => simp
  | ok v => cases strict <;> simp

/-- One iteration of the loop for an entry that passes the checks before the
duplicate-default check. -/
theorem depStep_of_ok {Syntax Value E : Type} (env : Env Syntax Value E) (filename : String)
    (strict : Bool) (st : DepState) (entry : String × Dep) (v : Version)
    (hv : depVersion env entry = .ok v) (hs : strict = true → v.path = entry.1) :
    depStep env filename strict st entry =
      if entry.2.Default = true then
        if env.module.BasePath v ∈ st.defaultMajorVersions.map Prod.fst then
          .error (.errorf ("multiple default major versions found for " ++
            env.module.BasePath v))
        else
          .ok { versions := st.versions ++ [v],
                defaultMajorVersions := st.defaultMajorVersions ++
                  [(env.module.BasePath v, env.semver.Major v.version)] }
      else .ok { versions := st.versions ++ [v],
                 defaultMajorVersions := st.defaultMajorVersions } := by
  unfold depVersion at hv
  have hs2 : ¬ (strict = true ∧ v.path ≠ entry.1) := fun ⟨a, b⟩ => b (hs a)
  unfold depStep
  simp only [hv, if_neg hs2]
  by_cases hd : entry.2.Default = true
  · simp only [hd, if_true]
    by_cases hm : env.module.BasePath v ∈ st.defaultMajorVersions.map Prod.fst
    · simp only [hm, if_true, (mapGet_isSome_iff _ _).2 hm]
    · have : ¬ (mapGet st.defaultMajorVersions (env.module.BasePath v)).isSome = true :=
        fun e => hm ((mapGet_isSome_iff _ _).1 e)
      simp only [hm, if_false, this, mapSet_absent _ _ _ hm]
      simp
  · simp only [hd, if_false]
    simp

/-- The loop on entries that all pass the checks before the duplicate-default
check: either it ends with the versions and the defaults of all entries added to
the state, and the requested default base paths are new and pairwise distinct; or
it fails with the multiple-default error for a requested base path that is
already in the state or is requested twice. -/
theorem depsLoop_of_ok {Syntax Value E : Type} (env : Env Syntax Value E) (filename : String)
    (strict : Bool) (deps : List (String × Dep)) (st : DepState)
    (hok : ∀ entry ∈ deps, depOk env strict entry = true) :
    (depsLoop env filename strict st deps =
        .ok { versions := st.versions ++ depVersionList env deps,
              defaultMajorVersions := st.defaultMajorVersions ++ defaultPairs env deps } ∧
      (∀ k ∈ (defaultPairs env deps).map Prod.fst, k ∉ st.defaultMajorVersions.map Prod.fst) ∧
      ((defaultPairs env deps).map Prod.fst).Nodup) ∨
    (∃ mp, depsLoop env filename strict st deps =
        .error (.errorf ("multiple default major versions found for " ++ mp)) ∧
      mp ∈ (defaultPairs env deps).map Prod.fst ∧
      (mp ∈ st.defaultMajorVersions.map Prod.fst ∨
        2 ≤ ((defaultPairs env deps).map Prod.fst).count mp)) := by
  induction deps generalizing st with
  | nil => left; simp [depsLoop, depVersionList, defaultPairs]
  | cons entry rest ih =>
    obtain ⟨v, hv, hs⟩ := (depOk_iff env strict entry).1 (hok entry (by simp))
    have hrest : ∀ e ∈ rest, depOk env strict e = true :=
      fun e he => hok e (List.mem_cons_of_mem _ he)
    have hstep := depStep_of_ok env filename strict st entry v hv hs
    have hvl : depVersionList env (entry :: rest) = v :: depVersionList env rest := by
      simp [depVersionList, hv, Except.toOption]
    by_cases hd : entry.2.Default = true
    · have hde : defaultEntry env entry =
          some (env.module.BasePath v, env.semver.Major v.version) := by
        simp [defaultEntry, hd, hv]
      have hdp : defaultPairs env (entry :: rest) =
          (env.module.BasePath v, env.semver.Major v.version) :: defaultPairs env rest := by
        simp [defaultPairs, hde]
      by_cases hm : env.module.BasePath v ∈ st.defaultMajorVersions.map Prod.fst
      · right
        refine ⟨env.module.BasePath v, ?_, ?_, Or.inl hm⟩
        · simp only [depsLoop, hstep, hd, if_true, hm]
        · rw [hdp]; simp
      · simp only [hd, if_true, hm, if_false] at hstep
        rcases ih { versions := st.versions ++ [v],
                    defaultMajorVersions := st.defaultMajorVersions ++
                      [(env.module.BasePath v, env.semver.Major v.version)] } hrest with
          ⟨hres, hnew, hnd⟩ | ⟨mp, hres, hmem, hdup⟩
        · left
          refine ⟨?_, ?_, ?_⟩
          · simp only [depsLoop, hstep, hres, hvl, hdp]
            simp
          · intro k hk
            rw [hdp] at hk
            simp only [List.map_cons, List.mem_cons] at hk
            rcases hk with hk | hk
            · rw [hk]; exact hm
            · have := hnew k hk
              simp only [List.map_append, List.mem_append, not_or] at this
              exact this.1
          · rw [hdp]
            simp only [List.map_cons, List.nodup_cons]
            refine ⟨fun hin => ?_, hnd⟩
            have := hnew _ hin
            simp at this
        · right
          refine ⟨mp, ?_, ?_, ?_⟩
          · simp only [depsLoop, hstep, hres]
          · rw [hdp]; simp only [List.map_cons, List.mem_cons]; exact Or.inr hmem
          · rw [hdp]
            simp only [List.map_cons, List.map_append, List.map_nil, List.mem_append,
              List.mem_singleton] at hdup ⊢
            rcases hdup with (hin | heq) | hc
            · exact Or.inl hin
            · right
              rw [heq, List.count_cons_self]
              have : 0 < List.count (env.module.BasePath v)
                  (List.map Prod.fst (defaultPairs env rest)) :=
                List.count_pos_iff.2 (heq ▸ hmem)
              omega
            · right
              have := List.count_le_count_cons mp (env.module.BasePath v)
                (List.map Prod.fst (defaultPairs env rest))
              omega
    · have hde : defaultEntry env entry = none := by
        simp [defaultEntry, hd]
      have hdp : defaultPairs env (entry :: rest) = defaultPairs env rest := by
        simp [defaultPairs, hde]
      simp only [hd, Bool.false_eq_true, if_false] at hstep
      rcases ih { versions := st.versions ++ [v],
                  defaultMajorVersions := st.defaultMajorVersions } hrest with
        ⟨hres, hnew, hnd⟩ | ⟨mp, hres, hmem, hdup⟩
      · left
        refine ⟨?_, ?_, ?_⟩
        · simp only [depsLoop, hstep, hres, hvl, hdp]
          simp
        · rw [hdp]; exact hnew
        · rw [hdp]; exact hnd
      · right
        refine ⟨mp, ?_, ?_, ?_⟩
        · simp only [depsLoop, hstep, hres]
        · rw [hdp]; exact hmem
        · rw [hdp]; exact hdup

/-- A loop that ends without error has passed, for every entry, the checks before
the duplicate-default check. -/
theorem depsLoop_ok_depOk {Syntax Value E : Type} (env : Env Syntax Value E)
    (filename : String) (strict : Bool) (deps : List (String × Dep)) (st st1 : DepState)
    (h : depsLoop env filename strict st deps = .ok st1) :
    ∀ entry ∈ deps, depOk env strict entry = true := by
  induction deps generalizing st with
  | nil => simp
  | cons entry rest ih =>
    intro e he
    cases hstep : depStep env filename strict st entry with
    | error err => simp [depsLoop, hstep] at h
    | ok st2 =>
      simp only [depsLoop, hstep] at h
      rcases List.mem_cons.1 he with he | he
      · subst he
        unfold depStep at hstep
        unfold depOk depVersion
        cases hv : env.module.NewVersion e.1 e.2.Version with
        | error err => simp [hv] at hstep
        | ok v =>
          simp only [hv] at hstep
          by_cases hs : strict = true ∧ v.path ≠ e.1
          · simp [hs] at hstep
          · cases strict
            · simp
            · simp only [true_and, ne_eq, not_not] at hs
              simp [hs]
      · exact ih st2 h e he

/-! ### `parse` in stages -/

/-- The function `parse` is `beforeDeps`, then the loop over `mf.Deps`, then
`finish`. -/
theorem parse_eq_stages {Syntax Value E : Type} (env : Env Syntax Value E)
    (modfile filename : String) (strict : Bool) :
    parse env modfile filename strict =
      match beforeDeps env modfile filename strict with
      | .error err => .error err
      | .ok (mf, mainPath, mainMajor, module) =>
        match depsLoop env filename strict
            { versions := [], defaultMajorVersions := [(mainPath, mainMajor)] }
            (mf.Deps.getD []) with
        | .error err => .error err
        | .ok st => .ok (finish env mf module st) := by
  unfold parse beforeDeps
  cases env.cue.ParseFile filename modfile with
  | error err => rfl
  | ok file =>
    simp only
    cases decodeStage env file filename with
    | error err => rfl
    | ok mf =>
      simp only [postDecode]
      cases mainModule env mf.Module filename strict with
      | error err => rfl
      | ok r =>
        obtain ⟨mainPath, mainMajor, module⟩ := r
        simp only
        cases checkLanguage env mf.Language filename with
        | some err => rfl
        | none => rfl

/-- A successful `parse` went through all stages. -/
theorem parse_ok_stages {Syntax Value E : Type} (env : Env Syntax Value E)
    (modfile filename : String) (strict : Bool) (f : File)
    (h : parse env modfile filename strict = .ok f) :
    ∃ mf mainPath mainMajor module st,
      beforeDeps env modfile filename strict = .ok (mf, mainPath, mainMajor, module) ∧
      depsLoop env filename strict
        { versions := [], defaultMajorVersions := [(mainPath, mainMajor)] }
        (mf.Deps.getD []) = .ok st ∧
      f = finish env mf module st := by
  rw [parse_eq_stages] at h
  cases hb : beforeDeps env modfile filename strict with
  | error err => simp [hb] at h
  | ok r =>
    obtain ⟨mf, mainPath, mainMajor, module⟩ := r
    simp only [hb] at h
    cases hl : depsLoop env filename strict
        { versions := [], defaultMajorVersions := [(mainPath, mainMajor)] }
        (mf.Deps.getD []) with
    | error err => simp [hl] at h
    | ok st =>
      simp only [hl, Except.ok.injEq] at h
      exact ⟨mf, mainPath, mainMajor, module, st, rfl, hl, h.symm⟩

theorem mem_defaultPairs_keys {Syntax Value E : Type} (env : Env Syntax Value E)
    (deps : List (String × Dep)) (entry : String × Dep) (v : Version)
    (hmem : entry ∈ deps) (hd : entry.2.Default = true) (hv : depVersion env entry = .ok v) :
    env.module.BasePath v ∈ (defaultPairs env deps).map Prod.fst := by
  simp only [defaultPairs, List.mem_map, List.mem_filterMap]
  exact ⟨(env.module.BasePath v, env.semver.Major v.version),
    ⟨entry, hmem, by simp [defaultEntry, hd, hv]⟩, rfl⟩

theorem count_defaultPairs_keys {Syntax Value E : Type} (env : Env Syntax Value E)
    (deps : List (String × Dep)) (e1 e2 : String × Dep) (v1 v2 : Version)
    (h1 : e1 ∈ deps) (h2 : e2 ∈ deps) (hne : e1.1 ≠ e2.1)
    (hd1 : e1.2.Default = true) (hd2 : e2.2.Default = true)
    (hv1 : depVersion env e1 = .ok v1) (hv2 : depVersion env e2 = .ok v2)
    (hbp : env.module.BasePath v1 = env.module.BasePath v2) :
    2 ≤ ((defaultPairs env deps).map Prod.fst).count (env.module.BasePath v1) := by
  obtain ⟨A, B, hAB⟩ := List.append_of_mem h1
  subst hAB
  have hne2 : e2 ≠ e1 := fun e => hne (by rw [e])
  have hde1 : defaultEntry env e1 =
      some (env.module.BasePath v1, env.semver.Major v1.version) := by
    simp [defaultEntry, hd1, hv1]
  have hsplit : (defaultPairs env (A ++ e1 :: B)).map Prod.fst =
      (defaultPairs env A).map Prod.fst ++
        env.module.BasePath v1 :: (defaultPairs env B).map Prod.fst := by
    simp [defaultPairs, List.filterMap_append, hde1]
  rw [hsplit, List.count_append, List.count_cons_self]
  have h2' : e2 ∈ A ∨ e2 ∈ B := by
    simp only [List.mem_append, List.mem_cons] at h2
    rcases h2 with h2 | h2 | h2
    · exact Or.inl h2
    · exact absurd h2 hne2
    · exact Or.inr h2
  rcases h2' with h2' | h2'
  · have := List.count_pos_iff.2 (hbp ▸ mem_defaultPairs_keys env A e2 v2 h2' hd2 hv2)
    omega
  · have := List.count_pos_iff.2 (hbp ▸ mem_defaultPairs_keys env B e2 v2 h2' hd2 hv2)
    omega

/-- The loop started from the pre-seeded map, on entries that all pass the checks
before the duplicate-default check, when some requested default base path is the
main module's base path or is requested twice: `parse` fails with the
multiple-default error for such a base path. -/
theorem parse_multiple_defaults {Syntax Value E : Type} (env : Env Syntax Value E)
    (modfile filename : String) (strict : Bool) (mf : File)
    (mainPath mainMajor module : String) (bp : String)
    (hb : beforeDeps env modfile filename strict = .ok (mf, mainPath, mainMajor, module))
    (hok : ∀ entry ∈ mf.Deps.getD [], depOk env strict entry = true)
    (hbp : bp ∈ (defaultPairs env (mf.Deps.getD [])).map Prod.fst)
    (hdup : bp = mainPath ∨ 2 ≤ ((defaultPairs env (mf.Deps.getD [])).map Prod.fst).count bp) :
    ∃ mp, parse env modfile filename strict =
        .error (.errorf ("multiple default major versions found for " ++ mp)) ∧
      mp ∈ (defaultPairs env (mf.Deps.getD [])).map Prod.fst ∧
      (mp = mainPath ∨ 2 ≤ ((defaultPairs env (mf.Deps.getD [])).map Prod.fst).count mp) := by
  rw [parse_eq_stages, hb]
  rcases depsLoop_of_ok env filename strict (mf.Deps.getD [])
      { versions := [], defaultMajorVersions := [(mainPath, mainMajor)] } hok with
    ⟨_, hnew, hnd⟩ | ⟨mp, hres, hmem, hd⟩
  · exfalso
    rcases hdup with hdup | hdup
    · exact hnew bp hbp (by simp [hdup])
    · have := List.nodup_iff_count_le_one.1 hnd bp
      omega
  · refine ⟨mp, by simp only [hres], hmem, ?_⟩
    rcases hd with hd | hd
    · left; simpa using hd
    · exact Or.inr hd

/-- A successful `parse` in full: all entries pass their checks, the main base
path and the requested default base paths are pairwise distinct, and the result
is built from the versions and the defaults of all entries. -/
theorem parse_ok_state {Syntax Value E : Type} (env : Env Syntax Value E)
    (modfile filename : String) (strict : Bool) (f : File)
    (h : parse env modfile filename strict = .ok f) :
    ∃ mf mainPath mainMajor module,
      beforeDeps env modfile filename strict = .ok (mf, mainPath, mainMajor, module) ∧
      (∀ entry ∈ mf.Deps.getD [], depOk env strict entry = true) ∧
      (mainPath :: (defaultPairs env (mf.Deps.getD [])).map Prod.fst).Nodup ∧
      f = finish env mf module
        { versions := depVersionList env (mf.Deps.getD []),
          defaultMajorVersions := (mainPath, mainMajor) :: defaultPairs env (mf.Deps.getD []) } := by
  obtain ⟨mf, mainPath, mainMajor, module, st, hb, hl, hf⟩ :=
    parse_ok_stages env modfile filename strict f h
  have hok := depsLoop_ok_depOk env filename strict _ _ _ hl
  refine ⟨mf, mainPath, mainMajor, module, hb, hok, ?_, ?_⟩
  · rcases depsLoop_of_ok env filename strict (mf.Deps.getD [])
        { versions := [], defaultMajorVersions := [(mainPath, mainMajor)] } hok with
      ⟨_, hnew, hnd⟩ | ⟨mp, hres, _, _⟩
    · refine List.nodup_cons.2 ⟨fun hin => ?_, hnd⟩
      exact hnew mainPath hin (by simp)
    · rw [hres] at hl; simp at hl
  · rcases depsLoop_of_ok env filename strict (mf.Deps.getD [])
        { versions := [], defaultMajorVersions := [(mainPath, mainMajor)] } hok with
      ⟨hres, _, _⟩ | ⟨mp, hres, _, _⟩
    · rw [hres] at hl
      simp only [Except.ok.injEq] at hl
      rw [hf, ← hl]
      simp
    · rw [hres] at hl; simp at hl

/-- The converse of `parse_ok_state`: `parse` returns a file when all stages
before the loop succeed, all entries pass their checks and the main base path
and the requested default base paths are pairwise distinct. -/
theorem parse_ok_of_state {Syntax Value E : Type} (env : Env Syntax Value E)
    (modfile filename : String) (strict : Bool) (mf : File)
    (mainPath mainMajor module : String)
    (hb : beforeDeps env modfile filename strict = .ok (mf, mainPath, mainMajor, module))
    (hok : ∀ entry ∈ mf.Deps.getD [], depOk env strict entry = true)
    (hnd : (mainPath :: (defaultPairs env (mf.Deps.getD [])).map Prod.fst).Nodup) :
    parse env modfile filename strict = .ok (finish env mf module
      { versions := depVersionList env (mf.Deps.getD []),
        defaultMajorVersions := (mainPath, mainMajor) :: defaultPairs env (mf.Deps.getD []) }) := by
  rw [parse_eq_stages, hb]
  rcases depsLoop_of_ok env filename strict (mf.Deps.getD [])
      { versions := [], defaultMajorVersions := [(mainPath, mainMajor)] } hok with
    ⟨hres, _, _⟩ | ⟨mp, _, hmem, hdup⟩
  · simp only [hres]
    simp
  · exfalso
    have hnd' := List.nodup_cons.1 hnd
    rcases hdup with hdup | hdup
    · simp only [List.map_cons, List.map_nil, List.mem_singleton] at hdup
      exact hnd'.1 (hdup ▸ hmem)
    · have := List.nodup_iff_count_le_one.1 hnd'.2 mp
      omega

/-- C2: when `parse` (strict or not) reaches the dependency loop, every entry
passes the checks that precede the duplicate-default check, and two entries of the
dependency map are marked default and have module versions with the same base
path, `parse` returns the error `multiple default major versions found for mp`.
The base path `mp` is one that a default entry asks for and that is the main
module's base path or is asked for twice; it is the base path of the two entries
when that is the only such base path. -/
theorem parse_duplicate_default {Syntax Value E : Type} (env : Env Syntax Value E)
    (modfile filename : String) (strict : Bool) (mf : File)
    (mainPath mainMajor module : String) (deps : List (String × Dep))
    (e1 e2 : String × Dep) (v1 v2 : Version)
    (hb : beforeDeps env modfile filename strict = .ok (mf, mainPath, mainMajor, module))
    (hdeps : mf.Deps = some deps)
    (hok : ∀ entry ∈ deps, depOk env strict entry = true)
    (h1 : e1 ∈ deps) (h2 : e2 ∈ deps) (hne : e1.1 ≠ e2.1)
    (hd1 : e1.2.Default = true) (hd2 : e2.2.Default = true)
    (hv1 : depVersion env e1 = .ok v1) (hv2 : depVersion env e2 = .ok v2)
    (hbp : env.module.BasePath v1 = env.module.BasePath v2) :
    ∃ mp, parse env modfile filename strict =
        .error (.errorf ("multiple default major versions found for " ++ mp)) ∧
      mp ∈ (defaultPairs env deps).map Prod.fst ∧
      (mp = mainPath ∨ 2 ≤ ((defaultPairs env deps).map Prod.fst).count mp) ∧
      ((∀ k ∈ (defaultPairs env deps).map Prod.fst,
          (k = mainPath ∨ 2 ≤ ((defaultPairs env deps).map Prod.fst).count k) →
            k = env.module.BasePath v1) →
        mp = env.module.BasePath v1) := by
  have hd : mf.Deps.getD [] = deps := by simp [hdeps]
  obtain ⟨mp, hres, hmem, hdup⟩ := parse_multiple_defaults env modfile filename strict mf
    mainPath mainMajor module (env.module.BasePath v1) hb (by rw [hd]; exact hok)
    (by rw [hd]; exact mem_defaultPairs_keys env deps e1 v1 h1 hd1 hv1)
    (by rw [hd]; exact Or.inr (count_defaultPairs_keys env deps e1 e2 v1 v2 h1 h2 hne hd1 hd2
      hv1 hv2 hbp))
  rw [hd] at hmem hdup
  exact ⟨mp, hres, hmem, hdup, fun huniq => huniq mp hmem hdup⟩

/-- C2, an instance of `parse_duplicate_default`: the dependencies `a.com/x@v1`
and `a.com/x@v2`, both marked default, make `Parse` fail with the multiple-default
error. -/
theorem parse_duplicate_default_witness :
    ∃ mp, parse (Ref.envOf "m.com/x@v1" (some [("a.com/x@v1", ⟨"v1.0.0", true⟩),
        ("a.com/x@v2", ⟨"v2.0.0", true⟩)])) "" "module.cue" true =
      .error (.errorf ("multiple default major versions found for " ++ mp)) := by
  obtain ⟨mp, h, _⟩ := parse_duplicate_default
    (Ref.envOf "m.com/x@v1" (some [("a.com/x@v1", ⟨"v1.0.0", true⟩),
      ("a.com/x@v2", ⟨"v2.0.0", true⟩)])) "" "module.cue" true
    (Ref.decoded "m.com/x@v1" (some [("a.com/x@v1", ⟨"v1.0.0", true⟩),
      ("a.com/x@v2", ⟨"v2.0.0", true⟩)])) "m.com/x" "v1" "m.com/x@v1"
    [("a.com/x@v1", ⟨"v1.0.0", true⟩), ("a.com/x@v2", ⟨"v2.0.0", true⟩)]
    ("a.com/x@v1", ⟨"v1.0.0", true⟩) ("a.com/x@v2", ⟨"v2.0.0", true⟩)
    ⟨"a.com/x@v1", "v1.0.0"⟩ ⟨"a.com/x@v2", "v2.0.0"⟩
    (by decide) rfl (by decide) (by decide) (by decide) (by decide) rfl rfl
    (by decide) (by decide) (by decide)
  exact ⟨mp, h⟩

/-! ### The sorted list of dependency versions -/

theorem stringLt_trichotomy (s t : List Char) :
    stringLt s t = true ∨ s = t ∨ stringLt t s = true := by
  induction s generalizing t with
  | nil => cases t <;> simp [stringLt]
  | cons a s ih =>
    cases t with
    | nil => simp [stringLt]
    | cons b t =>
      simp only [stringLt, Bool.or_eq_true, Bool.and_eq_true, decide_eq_true_eq,
        List.cons.injEq]
      rcases Nat.lt_trichotomy a.toNat b.toNat with hlt | heq | hgt
      · exact Or.inl (Or.inl hlt)
      · have hab : a = b := by
          rw [← Char.ofNat_toNat a, ← Char.ofNat_toNat b, heq]
        rcases ih t with h | h | h
        · exact Or.inl (Or.inr ⟨hab, h⟩)
        · exact Or.inr (Or.inl ⟨hab, h⟩)
        · exact Or.inr (Or.inr (Or.inr ⟨hab.symm, h⟩))
      · exact Or.inr (Or.inr (Or.inl hgt))

theorem stringLt_trans (s t u : List Char) (hst : stringLt s t = true)
    (htu : stringLt t u = true) : stringLt s u = true := by
  induction s generalizing t u with
  | nil =>
    cases t with
    | nil => simp [stringLt] at hst
    | cons b t =>
      cases u with
      | nil => simp [stringLt] at htu
      | cons c u => simp [stringLt]
  | cons a s ih =>
    cases t with
    | nil => simp [stringLt] at hst
    | cons b t =>
      cases u with
      | nil => simp [stringLt] at htu
      | cons c u =>
        simp only [stringLt, Bool.or_eq_true, Bool.and_eq_true, decide_eq_true_eq] at *
        rcases hst with hst | ⟨hab, hst⟩
        · rcases htu with htu | ⟨hbc, _⟩
          · exact Or.inl (by omega)
          · exact Or.inl (hbc ▸ hst)
        · rcases htu with htu | ⟨hbc, htu⟩
          · exact Or.inl (hab ▸ htu)
          · exact Or.inr ⟨hab.trans hbc, ih t u hst htu⟩

theorem versionLE_total (sv : Semver) (h : sv.Ordered) (mp : ModulePkg) (a b : Version) :
    versionLE sv mp a b = true ∨ versionLE sv mp b a = true := by
  simp only [versionLE, Bool.or_eq_true, Bool.and_eq_true, decide_eq_true_eq]
  rcases stringLt_trichotomy (mp.BasePath a).data (mp.BasePath b).data with hlt | heq | hgt
  · exact Or.inl (Or.inl hlt)
  · have heq' : mp.BasePath a = mp.BasePath b := String.ext heq
    have := h.swap a.version b.version
    by_cases hc : sv.Compare a.version b.version ≤ 0
    · exact Or.inl (Or.inr ⟨heq', hc⟩)
    · exact Or.inr (Or.inr ⟨heq'.symm, by omega⟩)
  · exact Or.inr (Or.inl hgt)

theorem versionLE_trans (sv : Semver) (h : sv.Ordered) (mp : ModulePkg) (a b c : Version)
    (hab : versionLE sv mp a b = true) (hbc : versionLE sv mp b c = true) :
    versionLE sv mp a c = true := by
  simp only [versionLE, Bool.or_eq_true, Bool.and_eq_true, decide_eq_true_eq] at *
  rcases hab with hab | ⟨hab, cab⟩
  · rcases hbc with hbc | ⟨hbc, _⟩
    · exact Or.inl (stringLt_trans _ _ _ hab hbc)
    · exact Or.inl (hbc ▸ hab)
  · rcases hbc with hbc | ⟨hbc, cbc⟩
    · exact Or.inl (hab ▸ hbc)
    · exact Or.inr ⟨hab.trans hbc, h.trans _ _ _ cab cbc⟩

theorem sortInsert_perm (le : Version → Version → Bool) (v : Version) (l : List Version) :
    (sortInsert le v l).Perm (v :: l) := by
  induction l with
  | nil => simp [sortInsert]
  | cons x xs ih =>
    unfold sortInsert
    by_cases hle : le v x = true
    · simp [hle]
    · simp only [hle, Bool.false_eq_true, if_false]
      exact (List.Perm.cons x ih).trans (List.Perm.swap v x xs)

theorem moduleSort_perm (sv : Semver) (mp : ModulePkg) (l : List Version) :
    (moduleSort sv mp l).Perm l := by
  induction l with
  | nil => simp [moduleSort]
  | cons x xs ih =>
    unfold moduleSort
    exact (sortInsert_perm _ x _).trans (List.Perm.cons x ih)

theorem sortInsert_pairwise (le : Version → Version → Bool)
    (total : ∀ a b, le a b = true ∨ le b a = true)
    (trans : ∀ a b c, le a b = true → le b c = true → le a c = true)
    (v : Version) (l : List Version) (hl : l.Pairwise (fun a b => le a b = true)) :
    (sortInsert le v l).Pairwise (fun a b => le a b = true) := by
  induction l with
  | nil => simp [sortInsert]
  | cons x xs ih =>
    obtain ⟨hx, hxs⟩ := List.pairwise_cons.1 hl
    unfold sortInsert
    by_cases hle : le v x = true
    · simp only [hle, if_true]
      refine List.pairwise_cons.2 ⟨fun y hy => ?_, hl⟩
      rcases List.mem_cons.1 hy with hy | hy
      · rw [hy]; exact hle
      · exact trans v x y hle (hx y hy)
    · simp only [hle, Bool.false_eq_true, if_false]
      refine List.pairwise_cons.2 ⟨fun y hy => ?_, ih hxs⟩
      have hy' : y ∈ v :: xs := (sortInsert_perm le v xs).mem_iff.1 hy
      rcases List.mem_cons.1 hy' with hy' | hy'
      · rw [hy']
        rcases total v x with t | t
        · exact absurd t hle
        · exact t
      · exact hx y hy'

theorem moduleSort_pairwise (sv : Semver) (h : sv.Ordered) (mp : ModulePkg)
    (l : List Version) :
    (moduleSort sv mp l).Pairwise (fun a b => versionLE sv mp a b = true) := by
  induction l with
  | nil => simp [moduleSort]
  | cons x xs ih =>
    unfold moduleSort
    exact sortInsert_pairwise _ (versionLE_total sv h mp) (versionLE_trans sv h mp) x _ ih

theorem depVersionList_forall₂ {Syntax Value E : Type} (env : Env Syntax Value E)
    (strict : Bool) (deps : List (String × Dep))
    (hok : ∀ entry ∈ deps, depOk env strict entry = true) :
    List.Forall₂ (fun entry v => env.module.NewVersion entry.1 entry.2.Version = .ok v)
      deps (depVersionList env deps) := by
  induction deps with
  | nil => simp [depVersionList]
  | cons entry rest ih =>
    obtain ⟨v, hv, _⟩ := (depOk_iff env strict entry).1 (hok entry (by simp))
    have hvl : depVersionList env (entry :: rest) = v :: depVersionList env rest := by
      simp [depVersionList, hv, Except.toOption]
    rw [hvl]
    exact List.Forall₂.cons hv (ih (fun e he => hok e (List.mem_cons_of_mem _ he)))

/-- C4: for every file that `parse` returns, `DepVersions()` is a rearrangement of
the list that has, for each entry of the dependency map, the module version
`module.NewVersion(key, declared version)`, and it is in ascending order by base
path and then by version. -/
theorem parse_depVersions_sorted {Syntax Value E : Type} (env : Env Syntax Value E)
    (hsv : env.semver.Ordered) (modfile filename : String) (strict : Bool) (f : File)
    (hf : parse env modfile filename strict = .ok f) :
    ∃ vs : List Version,
      List.Forall₂ (fun entry v => env.module.NewVersion entry.1 entry.2.Version = .ok v)
        (f.Deps.getD []) vs ∧
      f.DepVersions.Perm vs ∧
      f.DepVersions.Pairwise (fun a b => versionLE env.semver env.module a b = true) := by
  obtain ⟨mf, mainPath, mainMajor, module, _, hok, _, hfin⟩ :=
    parse_ok_state env modfile filename strict f hf
  have hdeps : f.Deps = mf.Deps := by rw [hfin]; rfl
  have hvers : f.DepVersions =
      moduleSort env.semver env.module (depVersionList env (mf.Deps.getD [])) := by
    rw [hfin]; rfl
  refine ⟨depVersionList env (mf.Deps.getD []), ?_, ?_, ?_⟩
  · rw [hdeps]; exact depVersionList_forall₂ env strict _ hok
  · rw [hvers]; exact moduleSort_perm _ _ _
  · rw [hvers]; exact moduleSort_pairwise _ hsv _ _

/-- C4, an instance of `parse_depVersions_sorted`: the dependencies `b.com@v1` at
`v1.0.0` and `a.com@v1` at `v1.2.0` are returned with `a.com` before `b.com`. -/
theorem parse_depVersions_sorted_witness :
    (∃ f, parse (Ref.envOf "m.com/x@v1" (some [("b.com@v1", ⟨"v1.0.0", false⟩),
          ("a.com@v1", ⟨"v1.2.0", false⟩)])) "" "module.cue" true = .ok f ∧
      f.DepVersions = [⟨"a.com@v1", "v1.2.0"⟩, ⟨"b.com@v1", "v1.0.0"⟩] ∧
      f.DepVersions.Pairwise (fun a b => versionLE Ref.semver Ref.module a b = true)) := by
  have hp : parse (Ref.envOf "m.com/x@v1" (some [("b.com@v1", ⟨"v1.0.0", false⟩),
        ("a.com@v1", ⟨"v1.2.0", false⟩)])) "" "module.cue" true =
      .ok { Ref.decoded "m.com/x@v1" (some [("b.com@v1", ⟨"v1.0.0", false⟩),
              ("a.com@v1", ⟨"v1.2.0", false⟩)]) with
            versions := [⟨"a.com@v1", "v1.2.0"⟩, ⟨"b.com@v1", "v1.0.0"⟩]
            defaultMajorVersions := [("m.com/x", "v1")] } := by decide
  obtain ⟨_, _, _, hsorted⟩ := parse_depVersions_sorted
    (Ref.envOf "m.com/x@v1" (some [("b.com@v1", ⟨"v1.0.0", false⟩),
      ("a.com@v1", ⟨"v1.2.0", false⟩)])) Ref.semver_ordered "" "module.cue" true _ hp
  exact ⟨_, hp, rfl, hsorted⟩

/-! ### The main module path and the language version -/

/-- C5: when the manifest decodes and `module.SplitPathVersion` reports no major
version for its module path, `Parse` (strict) returns the error
`module path ... does not contain major version` and no file. -/
theorem Parse_requires_major_version {Syntax Value E : Type} (env : Env Syntax Value E)
    (modfile filename : String) (file : Syntax) (mf : File)
    (hp : env.cue.ParseFile filename modfile = .ok file)
    (hd : decodeStage env file filename = .ok mf)
    (hs : (env.module.SplitPathVersion mf.Module).2.2 = false) :
    Parse env modfile filename =
      .error (.errorf ("module path " ++ env.quote mf.Module ++ " in " ++ filename ++
        " does not contain major version")) := by
  simp [Parse, parse, hp, hd, postDecode, mainModule, hs]

/-- C5, an instance of `Parse_requires_major_version`: the module path
`example.com/foo` is rejected by `Parse`. -/
theorem Parse_requires_major_version_witness :
    Parse (Ref.envOf "example.com/foo" none) "" "module.cue" =
      .error (.errorf ("module path " ++ "\"example.com/foo\"" ++ " in " ++ "module.cue" ++
        " does not contain major version")) :=
  Parse_requires_major_version (Ref.envOf "example.com/foo" none) "" "module.cue"
    (Ref.doc "example.com/foo" none) (Ref.decoded "example.com/foo" none)
    rfl (by decide) (by decide)

/-- C6: when the manifest decodes, its module path `p` is not empty, has no major
version and is a valid bare path, and the remaining checks pass (the language
version check, the checks of every dependency, and no default is asked for twice
or for `p`), `ParseNonStrict` returns a file whose `Module` is `p ++ "@v0"` and
whose `DefaultMajorVersions()` maps `p` to `v0`. -/
theorem ParseNonStrict_defaults_major_version {Syntax Value E : Type}
    (env : Env Syntax Value E) (modfile filename : String) (file : Syntax) (mf : File)
    (hp : env.cue.ParseFile filename modfile = .ok file)
    (hd : decodeStage env file filename = .ok mf)
    (hne : mf.Module ≠ "")
    (hs : (env.module.SplitPathVersion mf.Module).2.2 = false)
    (hc : env.module.CheckPathWithoutVersion mf.Module = none)
    (hl : checkLanguage env mf.Language filename = none)
    (hok : ∀ entry ∈ mf.Deps.getD [], depOk env false entry = true)
    (hnd : (mf.Module :: (defaultPairs env (mf.Deps.getD [])).map Prod.fst).Nodup) :
    ∃ f, ParseNonStrict env modfile filename = .ok f ∧
      f.Module = mf.Module ++ "@v0" ∧
      mapGet f.DefaultMajorVersions mf.Module = some "v0" := by
  have hb : beforeDeps env modfile filename false =
      .ok (mf, mf.Module, "v0", mf.Module ++ "@v0") := by
    simp [beforeDeps, hp, hd, mainModule, hs, hne, hc, hl]
  refine ⟨_, parse_ok_of_state env modfile filename false mf mf.Module "v0"
    (mf.Module ++ "@v0") hb hok hnd, ?_, ?_⟩
  · simp [finish]
  · simp [finish, File.DefaultMajorVersions, mapGet]

/-- C6, an instance of `ParseNonStrict_defaults_major_version`: the module path
`example.com/foo` becomes `example.com/foo@v0` with the default major version
`v0`. -/
theorem ParseNonStrict_defaults_major_version_witness :
    ∃ f, ParseNonStrict (Ref.envOf "example.com/foo" (some [("a.com", ⟨"v1.2.0", true⟩)]))
        "" "module.cue" = .ok f ∧
      f.Module = "example.com/foo" ++ "@v0" ∧
      mapGet f.DefaultMajorVersions "example.com/foo" = some "v0" :=
  ParseNonStrict_defaults_major_version
    (Ref.envOf "example.com/foo" (some [("a.com", ⟨"v1.2.0", true⟩)])) "" "module.cue"
    (Ref.doc "example.com/foo" (some [("a.com", ⟨"v1.2.0", true⟩)]))
    (Ref.decoded "example.com/foo" (some [("a.com", ⟨"v1.2.0", true⟩)]))
    rfl (by decide) (by decide) (by decide) (by decide) (by decide) (by decide) (by decide)

/-- C7: in strict and in non-strict mode, when the text parses, the value is
concrete and the declared language version decodes to `ver`, `parse` returns an
error and no file if `ver` is empty, is not a valid semantic version, or is greater
than the language version of the running system. -/
theorem parse_language_version_gate {Syntax Value E : Type} (env : Env Syntax Value E)
    (modfile filename : String) (strict : Bool) (file : Syntax) (ver : String)
    (hp : env.cue.ParseFile filename modfile = .ok file)
    (hc : env.cue.ValidateConcrete (env.cue.BuildFile file) = none)
    (hb : env.cue.DecodeBase (env.cue.BuildFile file) = .ok ver)
    (hbad : ver = "" ∨ env.semver.IsValid ver = false ∨
      env.semver.Compare ver env.cue.LanguageVersion > 0) :
    ∃ msg, parse env modfile filename strict = .error (.errorf msg) ∧
      (ver = "" → msg = "no language version declared in module.cue") ∧
      (ver ≠ "" → env.semver.IsValid ver = false →
        msg = "language version " ++ env.quote ver ++
          " in module.cue is not valid semantic version") ∧
      (ver ≠ "" → env.semver.IsValid ver = true →
        msg = "language version " ++ env.quote ver ++
          " declared in module.cue is too new for current language version " ++
          env.quote env.cue.LanguageVersion) := by
  by_cases h0 : ver = ""
  · refine ⟨_, ?_, fun _ => rfl, fun h => absurd h0 h, fun h => absurd h0 h⟩
    simp [parse, hp, decodeStage, hc, hb, h0]
  · by_cases h1 : env.semver.IsValid ver = false
    · refine ⟨_, ?_, fun h => absurd h h0, fun _ _ => rfl, fun _ h => ?_⟩
      · simp [parse, hp, decodeStage, hc, hb, h0, h1]
      · rw [h1] at h; simp at h
    · have h2 : env.semver.Compare ver env.cue.LanguageVersion > 0 := by
        rcases hbad with h | h | h
        · exact absurd h h0
        · exact absurd h h1
        · exact h
      refine ⟨_, ?_, fun h => absurd h h0, fun _ h => absurd h h1, fun _ _ => rfl⟩
      simp only [Bool.not_eq_false] at h1
      simp [parse, hp, decodeStage, hc, hb, h0, h1, h2]

/-- C7, an instance of `parse_language_version_gate`: the language version
`v0.11.0` is too new for a system of language version `v0.10.0`, in non-strict
mode too. -/
theorem parse_language_version_gate_witness :
    ∃ msg, parse (Ref.env { Module := "m.com/x@v1", Language := some { Version := "v0.11.0" },
                            Source := none, Deps := none } Ref.catalog "v0.10.0" "")
        "" "module.cue" false = .error (.errorf msg) := by
  obtain ⟨msg, h, _⟩ := parse_language_version_gate
    (Ref.env { Module := "m.com/x@v1", Language := some { Version := "v0.11.0" },
               Source := none, Deps := none } Ref.catalog "v0.10.0" "")
    "" "module.cue" false
    { Module := "m.com/x@v1", Language := some { Version := "v0.11.0" },
      Source := none, Deps := none } "v0.11.0" rfl rfl rfl (by decide)
  exact ⟨msg, h⟩

/-- C9, an instance of `newCUEError_spec`: with the reported positions
`module.cue:3` and offset 20 of the schema text `x: 1⏎//error: bad⏎foo: int⏎`, the
error becomes `invalid module.cue file: bad`. -/
theorem newCUEError_spec_witness :
    newCUEError
        (Ref.withPositions (Ref.env (Ref.doc "m.com/x@v1" none) Ref.catalog "v0.10.0"
          "x: 1\n//error: bad\nfoo: int\n")
          [{ Filename := "module.cue", Offset := 3 }, { Filename := schemaFile, Offset := 20 }])
        "conflicting values" "module.cue" =
      Error.errorf ("invalid module.cue file: " ++
        findErrorComment "x: 1\n//error: bad\nfoo: int\n"
          { Filename := schemaFile, Offset := 20 }) ∧
    findErrorComment "x: 1\n//error: bad\nfoo: int\n" { Filename := schemaFile, Offset := 20 } =
      "bad" :=
  ⟨(newCUEError_spec
      (Ref.withPositions (Ref.env (Ref.doc "m.com/x@v1" none) Ref.catalog "v0.10.0"
        "x: 1\n//error: bad\nfoo: int\n")
        [{ Filename := "module.cue", Offset := 3 }, { Filename := schemaFile, Offset := 20 }])
      "conflicting values" "module.cue").2
      [{ Filename := "module.cue", Offset := 3 }] [] { Filename := schemaFile, Offset := 20 }
      rfl (by decide) (by decide),
    by decide⟩

/-! ### Legacy decode, the sentinel case and `Source.Validate` -/

/-- C11: when the input compiles and its module field decodes to `module`,
`ParseLegacy` returns the file that has this `Module` and nothing else: `Language`,
`Source` and `Deps` are absent, `DepVersions()` and `DefaultMajorVersions()` are
empty and the schema version is `v0.0.0`.  The result is the same for every schema
catalog. -/
theorem ParseLegacy_spec {Syntax Value E : Type} (env : Env Syntax Value E)
    (modfile filename module : String)
    (hcompile : env.cue.Err (env.cue.CompileBytes modfile filename) = none)
    (hdecode : env.cue.DecodeNoDeps (env.cue.CompileBytes modfile filename) = .ok module) :
    (∃ f, ParseLegacy env modfile filename = .ok f ∧
      f.Module = module ∧ f.Language = none ∧ f.Source = none ∧ f.Deps = none ∧
      f.DepVersions = [] ∧ f.DefaultMajorVersions = [] ∧
      f.actualSchemaVersion = "v0.0.0") ∧
    (∀ versions : List (String × Value),
      ParseLegacy { env with cue := { env.cue with Versions := versions } } modfile filename =
        ParseLegacy env modfile filename) := by
  constructor
  · refine ⟨{ Module := module, Language := none, Source := none, Deps := none,
              versions := [], defaultMajorVersions := [], actualSchemaVersion := "v0.0.0" },
      by simp only [ParseLegacy, hcompile, hdecode], rfl, rfl, rfl, rfl, rfl, rfl, rfl⟩
  · intro versions
    rfl

/-- C11, an instance of `ParseLegacy_spec`: the manifest `module: "m.com/x@v1"`
yields the file with only that module path. -/
theorem ParseLegacy_spec_witness :
    ∃ f, ParseLegacy (Ref.env (Ref.legacyDoc "m.com/x@v1") Ref.catalog "v0.10.0" "")
        "" "module.cue" = .ok f ∧
      f.Module = "m.com/x@v1" ∧ f.Language = none ∧ f.Source = none ∧ f.Deps = none ∧
      f.DepVersions = [] ∧ f.DefaultMajorVersions = [] ∧
      f.actualSchemaVersion = "v0.0.0" :=
  (ParseLegacy_spec (Ref.env (Ref.legacyDoc "m.com/x@v1") Ref.catalog "v0.10.0" "")
    "" "module.cue" "m.com/x@v1" rfl rfl).1

/-- C17: `Source.Validate` returns nil exactly for the kinds `git` and `self`, and
for every other kind the error `unrecognized source kind` with the quoted kind. -/
theorem Source_Validate_spec {E : Type} (quote : String → String) (src : Source) :
    ((Source.Validate quote src : Option (Error E)) = none ↔
      (src.Kind = "git" ∨ src.Kind = "self")) ∧
    (¬ (src.Kind = "git" ∨ src.Kind = "self") →
      (Source.Validate quote src : Option (Error E)) =
        some (.errorf ("unrecognized source kind " ++ quote src.Kind))) := by
  unfold Source.Validate
  by_cases h : src.Kind = "git" ∨ src.Kind = "self"
  · simp [h]
  · simp [h]

/-- C17, instances of `Source_Validate_spec`: the kind `git` is accepted and the
empty kind is rejected. -/
theorem Source_Validate_spec_witness :
    (Source.Validate Ref.quote { Kind := "git" } : Option (Error String)) = none ∧
    (Source.Validate Ref.quote { Kind := "" } : Option (Error String)) =
      some (.errorf ("unrecognized source kind " ++ Ref.quote "")) :=
  ⟨(Source_Validate_spec Ref.quote { Kind := "git" }).1.2 (by decide),
   (Source_Validate_spec Ref.quote { Kind := "" }).2 (by decide)⟩

/-- A successful `beforeDeps` went through its four stages. -/
theorem beforeDeps_ok {Syntax Value E : Type} (env : Env Syntax Value E)
    (modfile filename : String) (strict : Bool) (mf : File)
    (mainPath mainMajor module : String)
    (h : beforeDeps env modfile filename strict = .ok (mf, mainPath, mainMajor, module)) :
    ∃ file, env.cue.ParseFile filename modfile = .ok file ∧
      decodeStage env file filename = .ok mf ∧
      mainModule env mf.Module filename strict = .ok (mainPath, mainMajor, module) ∧
      checkLanguage env mf.Language filename = none := by
  unfold beforeDeps at h
  cases hp : env.cue.ParseFile filename modfile with
  | error err => simp [hp] at h
  | ok file =>
    simp only [hp] at h
    cases hd : decodeStage env file filename with
    | error err => simp [hd] at h
    | ok mf1 =>
      simp only [hd] at h
      cases hm : mainModule env mf1.Module filename strict with
      | error err => simp [hm] at h
      | ok r =>
        obtain ⟨a, b, c⟩ := r
        simp only [hm] at h
        cases hl : checkLanguage env mf1.Language filename with
        | some err => simp [hl] at h
        | none =>
          simp only [hl, Except.ok.injEq, Prod.mk.injEq] at h
          obtain ⟨h1, h2, h3, h4⟩ := h
          subst h1 h2 h3 h4
          exact ⟨file, rfl, hd, hm, hl⟩

theorem checkLanguage_none_iff {Syntax Value E : Type} (env : Env Syntax Value E)
    (l : Language) (filename : String) :
    checkLanguage env (some l) filename = none ↔
      (env.semver.IsValid l.Version = true ∧ env.semver.Canonical l.Version = l.Version) := by
  unfold checkLanguage
  by_cases h1 : env.semver.IsValid l.Version = false
  · simp [h1]
  · by_cases h2 : env.semver.Canonical l.Version = l.Version
    · simp [h1, h2]
    · simp [h1, h2]

/-- C12 (as amended): when the version selector picks `(latest, schema)` and the
manifest is valid against that schema, the decode step keeps only the module path
and tags the file with `v0.0.0` if `latest` is `v0.0.0`; for every other `latest`
it decodes the full manifest and tags the file with `latest`. -/
theorem decodeStage_sentinel {Syntax Value E : Type} (env : Env Syntax Value E)
    (file : Syntax) (filename ver latest : String) (schema : Value)
    (hc : env.cue.ValidateConcrete (env.cue.BuildFile file) = none)
    (hb : env.cue.DecodeBase (env.cue.BuildFile file) = .ok ver)
    (hne : ver ≠ "") (hvalid : env.semver.IsValid ver = true)
    (hnew : ¬ env.semver.Compare ver env.cue.LanguageVersion > 0)
    (hsel : selectSchema env.semver ver env.cue.zeroValue env.cue.Versions =
      some (latest, schema))
    (hval : env.cue.Validate
      (env.cue.Unify (env.cue.BuildFile file) (env.cue.LookupFile schema)) = none) :
    (latest = "v0.0.0" →
      decodeStage env file filename =
        match env.cue.DecodeNoDeps
            (env.cue.Unify (env.cue.BuildFile file) (env.cue.LookupFile schema)) with
        | .error err => .error (newCUEError env err filename)
        | .ok module =>
          .ok { Module := module, Language := none, Source := none, Deps := none,
                versions := [], defaultMajorVersions := [],
                actualSchemaVersion := "v0.0.0" }) ∧
    (latest ≠ "v0.0.0" →
      decodeStage env file filename =
        match env.cue.DecodeFile
            (env.cue.Unify (env.cue.BuildFile file) (env.cue.LookupFile schema)) with
        | .error err => .error (.wrapf err "internal error: cannot decode into modFile struct")
        | .ok mf =>
          .ok { Module := mf.Module, Language := mf.Language, Source := mf.Source,
                Deps := mf.Deps, versions := [], defaultMajorVersions := [],
                actualSchemaVersion := latest }) := by
  constructor
  · intro h0
    unfold decodeStage
    simp only [hc, hb, hne, hvalid, hnew, hsel, hval, h0, if_false, if_true,
      Bool.true_eq_false]
  · intro h0
    unfold decodeStage
    simp only [hc, hb, hne, hvalid, hnew, hsel, hval, h0, if_false, Bool.true_eq_false]

/-- C12, an instance of `decodeStage_sentinel`: with the catalog `v0.0.0`,
`v0.8.0`, `v0.9.0` the language version `v0.5.0` selects `v0.0.0`, and only the
module path is kept. -/
theorem decodeStage_sentinel_witness :
    decodeStage (Ref.env (Ref.docAt "v0.5.0") Ref.catalog "v0.10.0" "")
        (Ref.docAt "v0.5.0") "module.cue" =
      .ok { Module := "m.com/x@v1", Language := none, Source := none, Deps := none,
            versions := [], defaultMajorVersions := [], actualSchemaVersion := "v0.0.0" } :=
  (decodeStage_sentinel (Ref.env (Ref.docAt "v0.5.0") Ref.catalog "v0.10.0" "")
    (Ref.docAt "v0.5.0") "module.cue" "v0.5.0" "v0.0.0" (Ref.docAt "v0.5.0")
    rfl rfl (by decide) (by decide) (by decide) (by decide) rfl).1 rfl

/-- C12 as stated fails: with the catalog keys `v0.8.0` and `v0.9.0` and the
language version `v0.8.0` the selector picks `v0.8.0`, which is
`EarliestClosedSchemaVersion()`, yet the full manifest is decoded (`Language` is
present) and the file is tagged `v0.8.0`, not `v0.0.0`. -/
theorem sentinel_not_earliest_counterexample :
    (selectSchema Ref.semver "v0.8.0" (Ref.docAt "v0.8.0")
      (Ref.env (Ref.docAt "v0.8.0") ["v0.8.0", "v0.9.0"] "v0.10.0" "").cue.Versions).map
        Prod.fst = some "v0.8.0" ∧
    EarliestClosedSchemaVersion Ref.semver
      (Ref.env (Ref.docAt "v0.8.0") ["v0.8.0", "v0.9.0"] "v0.10.0" "").cue.Versions =
        "v0.8.0" ∧
    decodeStage (Ref.env (Ref.docAt "v0.8.0") ["v0.8.0", "v0.9.0"] "v0.10.0" "")
        (Ref.docAt "v0.8.0") "module.cue" =
      .ok { Module := "m.com/x@v1", Language := some { Version := "v0.8.0" }, Source := none,
            Deps := none, versions := [], defaultMajorVersions := [],
            actualSchemaVersion := "v0.8.0" } := by
  refine ⟨by decide, by decide, by decide⟩

/-! ### The language version and the dependency keys -/

/-- C13: every file that `parse` returns (strict or not) with a `Language` field
has a valid language version that is its own canonical form; and when the decoded
manifest has a `Language` field whose version is invalid or not canonical, `parse`
returns an error. -/
theorem parse_language_canonical {Syntax Value E : Type} (env : Env Syntax Value E)
    (modfile filename : String) (strict : Bool) :
    (∀ (f : File) (l : Language), parse env modfile filename strict = .ok f →
      f.Language = some l →
      env.semver.IsValid l.Version = true ∧ env.semver.Canonical l.Version = l.Version) ∧
    (∀ (file : Syntax) (mf : File) (l : Language),
      env.cue.ParseFile filename modfile = .ok file →
      decodeStage env file filename = .ok mf → mf.Language = some l →
      (env.semver.IsValid l.Version = false ∨ env.semver.Canonical l.Version ≠ l.Version) →
      ∃ err, parse env modfile filename strict = .error err) := by
  constructor
  · intro f l hf hl
    obtain ⟨mf, mainPath, mainMajor, module, hb, _, _, hfin⟩ :=
      parse_ok_state env modfile filename strict f hf
    obtain ⟨file, _, _, _, hlang⟩ := beforeDeps_ok env modfile filename strict _ _ _ _ hb
    have hfl : f.Language = mf.Language := by rw [hfin]; rfl
    rw [hfl] at hl
    rw [hl] at hlang
    exact (checkLanguage_none_iff env l filename).1 hlang
  · intro file mf l hp hd hl hbad
    cases hres : parse env modfile filename strict with
    | error err => exact ⟨err, rfl⟩
    | ok f =>
      exfalso
      obtain ⟨mf1, mainPath, mainMajor, module, hb, _, _, _⟩ :=
        parse_ok_state env modfile filename strict f hres
      obtain ⟨file1, hp1, hd1, _, hlang⟩ := beforeDeps_ok env modfile filename strict _ _ _ _ hb
      rw [hp] at hp1
      simp only [Except.ok.injEq] at hp1
      subst hp1
      rw [hd] at hd1
      simp only [Except.ok.injEq] at hd1
      subst hd1
      rw [hl] at hlang
      obtain ⟨h1, h2⟩ := (checkLanguage_none_iff env l filename).1 hlang
      rcases hbad with hbad | hbad
      · rw [h1] at hbad; simp at hbad
      · exact hbad h2

/-- C13, instances of `parse_language_canonical`: the parsed file of the examples
has the canonical language version `v0.9.0`, and the language version `v0.9` makes
`ParseNonStrict` fail. -/
theorem parse_language_canonical_witness :
    (Ref.semver.IsValid "v0.9.0" = true ∧ Ref.semver.Canonical "v0.9.0" = "v0.9.0") ∧
    (∃ err, parse (Ref.env (Ref.docAt "v0.9") Ref.catalog "v0.10.0" "")
      "" "module.cue" false = .error err) := by
  constructor
  · have hp : parse (Ref.envOf "m.com/x@v1" none) "" "module.cue" true =
        .ok { Ref.decoded "m.com/x@v1" none with
              defaultMajorVersions := [("m.com/x", "v1")] } := by decide
    exact (parse_language_canonical (Ref.envOf "m.com/x@v1" none) "" "module.cue" true).1
      _ { Version := "v0.9.0" } hp rfl
  · exact (parse_language_canonical (Ref.env (Ref.docAt "v0.9") Ref.catalog "v0.10.0" "")
      "" "module.cue" false).2 (Ref.docAt "v0.9")
      { Module := "m.com/x@v1", Language := some { Version := "v0.9" }, Source := none,
        Deps := none, versions := [], defaultMajorVersions := [],
        actualSchemaVersion := "v0.9.0" }
      { Version := "v0.9" } rfl (by decide) rfl (by decide)

/-- C14, the code at the failing input: for a manifest with the module path
`m.com/x@v1` and the valid but not canonical language version `v0.9`,
`ParseNonStrict` does not store `v0.9.0`; it returns the error
`language version v0.9 in module.cue is not canonical`. -/
theorem ParseNonStrict_rejects_non_canonical :
    Ref.semver.IsValid "v0.9" = true ∧ Ref.semver.Canonical "v0.9" = "v0.9.0" ∧
    ParseNonStrict (Ref.env (Ref.docAt "v0.9") Ref.catalog "v0.10.0" "") "" "module.cue" =
      .error (.errorf "language version v0.9 in module.cue is not canonical") := by
  refine ⟨by decide, by decide, by decide⟩

/-- C15: (i) when `Parse` (strict) reaches the dependency loop and the module
version constructed for some entry has a path that differs from the key of the
entry, `Parse` returns an error; (ii) `ParseNonStrict` returns a file whenever it
reaches the loop, the module version of every entry can be constructed and no
default is asked for twice or for the main base path, whatever the keys are. -/
theorem Parse_strict_dependency_keys {Syntax Value E : Type} (env : Env Syntax Value E)
    (modfile filename : String) :
    (∀ (mf : File) (mainPath mainMajor module : String) (entry : String × Dep) (v : Version),
      beforeDeps env modfile filename true = .ok (mf, mainPath, mainMajor, module) →
      entry ∈ mf.Deps.getD [] → depVersion env entry = .ok v → v.path ≠ entry.1 →
      ∃ err, Parse env modfile filename = .error err) ∧
    (∀ (mf : File) (mainPath mainMajor module : String),
      beforeDeps env modfile filename false = .ok (mf, mainPath, mainMajor, module) →
      (∀ entry ∈ mf.Deps.getD [], ∃ v, depVersion env entry = .ok v) →
      (mainPath :: (defaultPairs env (mf.Deps.getD [])).map Prod.fst).Nodup →
      ∃ f, ParseNonStrict env modfile filename = .ok f) := by
  constructor
  · intro mf mainPath mainMajor module entry v hb hmem hv hpath
    cases hres : Parse env modfile filename with
    | error err => exact ⟨err, rfl⟩
    | ok f =>
      exfalso
      obtain ⟨mf1, mainPath1, mainMajor1, module1, hb1, hok, _, _⟩ :=
        parse_ok_state env modfile filename true f hres
      rw [hb] at hb1
      simp only [Except.ok.injEq, Prod.mk.injEq] at hb1
      obtain ⟨h1, _, _, _⟩ := hb1
      subst h1
      obtain ⟨v1, hv1, hs⟩ := (depOk_iff env true entry).1 (hok entry hmem)
      rw [hv] at hv1
      simp only [Except.ok.injEq] at hv1
      subst hv1
      exact hpath (hs rfl)
  · intro mf mainPath mainMajor module hb hall hnd
    refine ⟨_, parse_ok_of_state env modfile filename false mf mainPath mainMajor module hb
      (fun entry hmem => ?_) hnd⟩
    obtain ⟨v, hv⟩ := hall entry hmem
    exact (depOk_iff env false entry).2 ⟨v, hv, fun h => by simp at h⟩

/-- C15, instances of `Parse_strict_dependency_keys`: the dependency key `a.com`
(version `v1.2.0`, module version path `a.com@v1`) makes `Parse` fail and does
not make `ParseNonStrict` fail. -/
theorem Parse_strict_dependency_keys_witness :
    (∃ err, Parse (Ref.envOf "m.com/x@v1" (some [("a.com", ⟨"v1.2.0", false⟩)]))
      "" "module.cue" = .error err) ∧
    (∃ f, ParseNonStrict (Ref.envOf "m.com/x@v1" (some [("a.com", ⟨"v1.2.0", false⟩)]))
      "" "module.cue" = .ok f) :=
  ⟨(Parse_strict_dependency_keys (Ref.envOf "m.com/x@v1" (some [("a.com", ⟨"v1.2.0", false⟩)]))
      "" "module.cue").1 (Ref.decoded "m.com/x@v1" (some [("a.com", ⟨"v1.2.0", false⟩)]))
      "m.com/x" "v1" "m.com/x@v1" ("a.com", ⟨"v1.2.0", false⟩) ⟨"a.com@v1", "v1.2.0"⟩
      (by decide) (by decide) (by decide) (by decide),
   (Parse_strict_dependency_keys (Ref.envOf "m.com/x@v1" (some [("a.com", ⟨"v1.2.0", false⟩)]))
      "" "module.cue").2 (Ref.decoded "m.com/x@v1" (some [("a.com", ⟨"v1.2.0", false⟩)]))
      "m.com/x" "v1" "m.com/x@v1" (by decide)
      (fun entry hmem => ⟨⟨"a.com@v1", "v1.2.0"⟩, by
        simp only [Ref.decoded, Option.getD_some, List.mem_singleton] at hmem
        subst hmem
        decide⟩)
      (by decide)⟩

/-! ### The self-check of `Format` -/

theorem omitEmptyDeps_Language (f : File) : (omitEmptyDeps f).Language = f.Language := by
  unfold omitEmptyDeps
  split_ifs <;> rfl

/-- C16: whenever `Format` returns bytes, `ParseNonStrict` of these bytes succeeds
and, if the file has a `Language` field, the schema version of the re-parsed file
is not `v0.0.0`.  Conversely, when encoding and printing succeed, `Format` returns
an error if the re-parse fails, and also if the file has a `Language` field and the
schema version of the re-parsed file is `v0.0.0`. -/
theorem Format_self_check {Syntax Value E : Type} (env : Env Syntax Value E) (f : File) :
    (∀ data : String, f.Format env = .ok data →
      ∃ f1, ParseNonStrict env data "-" = .ok f1 ∧
        (f.Language ≠ none → f1.actualSchemaVersion ≠ "v0.0.0")) ∧
    (∀ data : String,
      env.cue.ValidateConcrete (env.cue.Encode (omitEmptyDeps f).fields) = none →
      env.cue.FormatNode (env.cue.Encode (omitEmptyDeps f).fields) = .ok data →
      (∀ err, ParseNonStrict env data "-" = .error err →
        f.Format env = .error (.errorf ("cannot round-trip module file: " ++
          trimSuffix (env.details err) "\n"))) ∧
      (∀ f1, ParseNonStrict env data "-" = .ok f1 → f.Language ≠ none →
        f1.actualSchemaVersion = "v0.0.0" →
        f.Format env = .error (.errorf ("language version " ++
          ((f.Language.map (fun l => l.Version)).getD "") ++
          " is too early for module.cue (need at least " ++
          EarliestClosedSchemaVersion env.semver env.cue.Versions ++ ")")))) := by
  constructor
  · intro data h
    unfold File.Format at h
    cases hv : env.cue.ValidateConcrete (env.cue.Encode (omitEmptyDeps f).fields) with
    | some err => simp [hv] at h
    | none =>
      simp only [hv] at h
      cases hn : env.cue.FormatNode (env.cue.Encode (omitEmptyDeps f).fields) with
      | error err => simp [hn] at h
      | ok data1 =>
        simp only [hn] at h
        cases hp : ParseNonStrict env data1 "-" with
        | error err => simp [hp] at h
        | ok f1 =>
          simp only [hp, omitEmptyDeps_Language] at h
          by_cases hg : f.Language ≠ none ∧ f1.actualSchemaVersion = "v0.0.0"
          · simp [hg] at h
          · simp only [hg, if_false, Except.ok.injEq] at h
            subst h
            exact ⟨f1, hp, fun hl hs => hg ⟨hl, hs⟩⟩
  · intro data hv hn
    constructor
    · intro err hp
      simp only [File.Format, hv, hn, hp]
    · intro f1 hp hl hs
      have hg : f.Language ≠ none ∧ f1.actualSchemaVersion = "v0.0.0" := ⟨hl, hs⟩
      simp only [File.Format, hv, hn, hp, omitEmptyDeps_Language, if_pos hg]

/-- C16, instances of `Format_self_check`: the bytes that `Format` returns for
the file of the examples parse again, and `Format` fails for a file whose language
version `v0.5.0` selects the schema `v0.0.0`. -/
theorem Format_self_check_witness :
    (∃ f1, ParseNonStrict (Ref.envOf "m.com/x@v1" none) "module: m.com/x@v1" "-" = .ok f1 ∧
      ((Ref.decoded "m.com/x@v1" none).Language ≠ none → f1.actualSchemaVersion ≠ "v0.0.0")) ∧
    (∃ e, File.Format (Ref.env (Ref.docAt "v0.5.0") Ref.catalog "v0.10.0" "")
      { Ref.decoded "m.com/x@v1" none with Language := some { Version := "v0.5.0" } } =
        .error e) :=
  ⟨(Format_self_check (Ref.envOf "m.com/x@v1" none) (Ref.decoded "m.com/x@v1" none)).1
      "module: m.com/x@v1" (by decide),
   _, ((Format_self_check (Ref.env (Ref.docAt "v0.5.0") Ref.catalog "v0.10.0" "")
      { Ref.decoded "m.com/x@v1" none with Language := some { Version := "v0.5.0" } }).2
      "module: m.com/x@v1" rfl rfl).2
      { Module := "m.com/x@v1", Language := none, Source := none, Deps := none,
        versions := [], defaultMajorVersions := [("m.com/x", "v1")],
        actualSchemaVersion := "v0.0.0" }
      (by decide) (by decide) rfl⟩

/-! ### The content of the default-major-version map -/

theorem mem_defaultPairs_iff {Syntax Value E : Type} (env : Env Syntax Value E)
    (deps : List (String × Dep)) (k m : String) :
    (k, m) ∈ defaultPairs env deps ↔
      ∃ entry ∈ deps, entry.2.Default = true ∧
        ∃ v, depVersion env entry = .ok v ∧ env.module.BasePath v = k ∧
          env.semver.Major v.version = m := by
  simp only [defaultPairs, List.mem_filterMap]
  constructor
  · rintro ⟨entry, hmem, hde⟩
    unfold defaultEntry at hde
    by_cases hd : entry.2.Default = true
    · simp only [hd, if_true] at hde
      cases hv : depVersion env entry with
      | error err => simp [hv] at hde
      | ok v =>
        simp only [hv, Option.some.injEq, Prod.mk.injEq] at hde
        exact ⟨entry, hmem, hd, v, hv, hde.1, hde.2⟩
    · simp [hd] at hde
  · rintro ⟨entry, hmem, hd, v, hv, hk, hm⟩
    exact ⟨entry, hmem, by simp [defaultEntry, hd, hv, hk, hm]⟩

theorem mapGet_of_mem (l : List (String × String)) (k v : String)
    (hnd : (l.map Prod.fst).Nodup) (hmem : (k, v) ∈ l) : mapGet l k = some v := by
  induction l with
  | nil => simp at hmem
  | cons x l ih =>
    obtain ⟨k1, v1⟩ := x
    simp only [List.map_cons, List.nodup_cons] at hnd
    rcases List.mem_cons.1 hmem with h | h
    · simp only [Prod.mk.injEq] at h
      simp [mapGet, h.1, h.2]
    · have hne : ¬ k1 = k := by
        intro e
        apply hnd.1
        rw [e]
        exact List.mem_map_of_mem Prod.fst h
      simp only [mapGet, hne, if_false]
      exact ih hnd.2 h

theorem defaultPairs_filter {Syntax Value E : Type} (env : Env Syntax Value E)
    (deps : List (String × Dep)) :
    defaultPairs env (deps.filter (fun entry => entry.2.Default)) = defaultPairs env deps := by
  induction deps with
  | nil => rfl
  | cons entry rest ih =>
    by_cases hd : entry.2.Default = true
    · simp only [List.filter_cons, hd, if_true]
      simp only [defaultPairs, List.filterMap_cons] at ih ⊢
      rw [ih]
    · have hde : defaultEntry env entry = none := by simp [defaultEntry, hd]
      simp only [List.filter_cons, hd, Bool.false_eq_true, if_false]
      rw [ih]
      simp [defaultPairs, hde]

/-! ### Independence of the order in which the dependency map is visited -/

/-- The loop started from the pre-seeded map ends without error exactly when every
entry passes its checks and the main base path and the requested default base
paths are pairwise distinct; the final state is then fixed by the entries. -/
theorem depsLoop_seeded_iff {Syntax Value E : Type} (env : Env Syntax Value E)
    (filename : String) (strict : Bool) (mainPath mainMajor : String)
    (deps : List (String × Dep)) (st : DepState) :
    depsLoop env filename strict
        { versions := [], defaultMajorVersions := [(mainPath, mainMajor)] } deps = .ok st ↔
      ((∀ entry ∈ deps, depOk env strict entry = true) ∧
        (mainPath :: (defaultPairs env deps).map Prod.fst).Nodup ∧
        st = { versions := depVersionList env deps,
               defaultMajorVersions := (mainPath, mainMajor) :: defaultPairs env deps }) := by
  constructor
  · intro h
    have hok := depsLoop_ok_depOk env filename strict _ _ _ h
    rcases depsLoop_of_ok env filename strict deps
        { versions := [], defaultMajorVersions := [(mainPath, mainMajor)] } hok with
      ⟨hres, hnew, hnd⟩ | ⟨mp, hres, _, _⟩
    · refine ⟨hok, List.nodup_cons.2 ⟨fun hin => hnew mainPath hin (by simp), hnd⟩, ?_⟩
      rw [hres] at h
      simp only [Except.ok.injEq] at h
      rw [← h]
      simp
    · rw [hres] at h; simp at h
  · rintro ⟨hok, hnd, hst⟩
    rcases depsLoop_of_ok env filename strict deps
        { versions := [], defaultMajorVersions := [(mainPath, mainMajor)] } hok with
      ⟨hres, _, _⟩ | ⟨mp, _, hmem, hdup⟩
    · rw [hres, hst]
      simp
    · exfalso
      have hnd' := List.nodup_cons.1 hnd
      rcases hdup with hdup | hdup
      · simp only [List.map_cons, List.map_nil, List.mem_singleton] at hdup
        exact hnd'.1 (hdup ▸ hmem)
      · have := List.nodup_iff_count_le_one.1 hnd'.2 mp
        omega

theorem mapGet_some_mem (l : List (String × String)) (k v : String)
    (h : mapGet l k = some v) : (k, v) ∈ l := by
  induction l with
  | nil => simp [mapGet] at h
  | cons x l ih =>
    obtain ⟨k1, v1⟩ := x
    by_cases hk : k1 = k
    · simp only [mapGet, hk, if_true, Option.some.injEq] at h
      simp [hk, h]
    · simp only [mapGet, hk, if_false] at h
      exact List.mem_cons_of_mem _ (ih h)

/-- Two lists with distinct keys that are rearrangements of each other are the
same map. -/
theorem mapGet_perm (l1 l2 : List (String × String)) (hperm : l1.Perm l2)
    (hnd : (l1.map Prod.fst).Nodup) (k : String) : mapGet l1 k = mapGet l2 k := by
  have hnd2 : (l2.map Prod.fst).Nodup := (hperm.map Prod.fst).nodup hnd
  cases h1 : mapGet l1 k with
  | some v =>
    exact (mapGet_of_mem l2 k v hnd2 (hperm.mem_iff.1 (mapGet_some_mem l1 k v h1))).symm
  | none =>
    cases h2 : mapGet l2 k with
    | none => rfl
    | some v =>
      have := mapGet_of_mem l1 k v hnd (hperm.mem_iff.2 (mapGet_some_mem l2 k v h2))
      rw [h1] at this
      exact this

/-- Two sorted rearrangements of the same list are equal when the order is
antisymmetric on the members of the list. -/
theorem sorted_perm_eq (le : Version → Version → Bool) (l1 l2 : List Version)
    (hperm : l1.Perm l2)
    (h1 : l1.Pairwise (fun a b => le a b = true))
    (h2 : l2.Pairwise (fun a b => le a b = true))
    (hanti : ∀ a ∈ l1, ∀ b ∈ l1, le a b = true → le b a = true → a = b) :
    l1 = l2 := by
  induction l1 generalizing l2 with
  | nil => exact (List.Perm.nil_eq hperm)
  | cons a t1 ih =>
    cases l2 with
    | nil => exact absurd hperm.symm (by simp)
    | cons b t2 =>
      obtain ⟨ha, ht1⟩ := List.pairwise_cons.1 h1
      obtain ⟨hb, ht2⟩ := List.pairwise_cons.1 h2
      have hab : a = b := by
        by_cases e : a = b
        · exact e
        · have ha2 : a ∈ b :: t2 := hperm.mem_iff.1 (by simp)
          have hb1 : b ∈ a :: t1 := hperm.mem_iff.2 (by simp)
          have ha2' : a ∈ t2 := by
            rcases List.mem_cons.1 ha2 with h | h
            · exact absurd h e
            · exact h
          have hb1' : b ∈ t1 := by
            rcases List.mem_cons.1 hb1 with h | h
            · exact absurd h.symm e
            · exact h
          exact hanti a (by simp) b hb1 (ha b hb1') (hb a ha2')
      subst hab
      have := ih t2 hperm.cons_inv ht1 ht2
        (fun x hx y hy => hanti x (List.mem_cons_of_mem _ hx) y (List.mem_cons_of_mem _ hy))
      rw [this]

/-- The part of `parse` after the decode stage returns a file exactly when the
main-module and language checks pass, every entry passes its checks and the main
base path and the requested default base paths are pairwise distinct. -/
theorem postDecode_ok_iff {Syntax Value E : Type} (env : Env Syntax Value E) (mf : File)
    (filename : String) (strict : Bool) (f : File) :
    postDecode env mf filename strict = .ok f ↔
      ∃ mainPath mainMajor module,
        mainModule env mf.Module filename strict = .ok (mainPath, mainMajor, module) ∧
        checkLanguage env mf.Language filename = none ∧
        (∀ entry ∈ mf.Deps.getD [], depOk env strict entry = true) ∧
        (mainPath :: (defaultPairs env (mf.Deps.getD [])).map Prod.fst).Nodup ∧
        f = finish env mf module
          { versions := depVersionList env (mf.Deps.getD []),
            defaultMajorVersions :=
              (mainPath, mainMajor) :: defaultPairs env (mf.Deps.getD []) } := by
  unfold postDecode
  cases hm : mainModule env mf.Module filename strict with
  | error err => simp
  | ok r =>
    obtain ⟨mainPath, mainMajor, module⟩ := r
    cases hl : checkLanguage env mf.Language filename with
    | some err => simp
    | none =>
      simp only
      cases hd : depsLoop env filename strict
          { versions := [], defaultMajorVersions := [(mainPath, mainMajor)] }
          (mf.Deps.getD []) with
      | error err =>
        constructor
        · intro h
          simp at h
        rintro ⟨a, b, c, habc, _, hok, hnd, _⟩
        exfalso
        simp only [Except.ok.injEq, Prod.mk.injEq] at habc
        obtain ⟨h1, h2, _⟩ := habc
        subst h1 h2
        have := (depsLoop_seeded_iff env filename strict mainPath mainMajor
          (mf.Deps.getD []) _).2 ⟨hok, hnd, rfl⟩
        rw [hd] at this
        simp at this
      | ok st =>
        obtain ⟨hok, hnd, hst⟩ := (depsLoop_seeded_iff env filename strict mainPath mainMajor
          (mf.Deps.getD []) st).1 hd
        simp only [Except.ok.injEq]
        constructor
        · intro h
          exact ⟨mainPath, mainMajor, module, rfl, trivial, hok, hnd, by rw [← h, hst]⟩
        · rintro ⟨a, b, c, habc, _, _, _, hf⟩
          simp only [Except.ok.injEq, Prod.mk.injEq] at habc
          obtain ⟨h1, h2, h3⟩ := habc
          subst h1 h2 h3
          rw [hf, hst]

/-- C19: for a decoded manifest and two orders `deps1`, `deps2` in which the same
dependency map is visited, the part of `parse` after the decode stage returns a
file for one order exactly when it does for the other; and then both files have
the same `DepVersions()` list and the same `DefaultMajorVersions()` map.  The order
of `module.Sort` is assumed to be antisymmetric on the module versions of the
entries. -/
theorem postDecode_order_independent {Syntax Value E : Type} (env : Env Syntax Value E)
    (hsv : env.semver.Ordered) (mf : File) (filename : String) (strict : Bool)
    (deps1 deps2 : List (String × Dep)) (hperm : deps1.Perm deps2)
    (hanti : ∀ a ∈ depVersionList env deps1, ∀ b ∈ depVersionList env deps1,
      versionLE env.semver env.module a b = true →
      versionLE env.semver env.module b a = true → a = b) :
    ((∃ f1, postDecode env { mf with Deps := some deps1 } filename strict = .ok f1) ↔
      (∃ f2, postDecode env { mf with Deps := some deps2 } filename strict = .ok f2)) ∧
    (∀ f1 f2 : File,
      postDecode env { mf with Deps := some deps1 } filename strict = .ok f1 →
      postDecode env { mf with Deps := some deps2 } filename strict = .ok f2 →
      f1.DepVersions = f2.DepVersions ∧
      ∀ k, mapGet f1.DefaultMajorVersions k = mapGet f2.DefaultMajorVersions k) := by
  have hpairs : (defaultPairs env deps1).Perm (defaultPairs env deps2) :=
    hperm.filterMap _
  have hvers : (depVersionList env deps1).Perm (depVersionList env deps2) :=
    hperm.filterMap _
  have hkeys : ∀ mainPath : String,
      (mainPath :: (defaultPairs env deps1).map Prod.fst).Nodup ↔
        (mainPath :: (defaultPairs env deps2).map Prod.fst).Nodup :=
    fun mainPath => ((hpairs.map Prod.fst).cons mainPath).nodup_iff
  constructor
  · constructor
    · rintro ⟨f1, h1⟩
      obtain ⟨a, b, c, hm, hl, hok, hnd, _⟩ := (postDecode_ok_iff env _ filename strict f1).1 h1
      exact ⟨_, (postDecode_ok_iff env _ filename strict _).2 ⟨a, b, c, hm, hl,
        fun entry hmem => hok entry (hperm.mem_iff.2 hmem), (hkeys a).1 hnd, rfl⟩⟩
    · rintro ⟨f2, h2⟩
      obtain ⟨a, b, c, hm, hl, hok, hnd, _⟩ := (postDecode_ok_iff env _ filename strict f2).1 h2
      exact ⟨_, (postDecode_ok_iff env _ filename strict _).2 ⟨a, b, c, hm, hl,
        fun entry hmem => hok entry (hperm.mem_iff.1 hmem), (hkeys a).2 hnd, rfl⟩⟩
  · intro f1 f2 h1 h2
    obtain ⟨a1, b1, c1, hm1, _, _, hnd1, hf1⟩ :=
      (postDecode_ok_iff env _ filename strict f1).1 h1
    obtain ⟨a2, b2, c2, hm2, _, _, _, hf2⟩ :=
      (postDecode_ok_iff env _ filename strict f2).1 h2
    have hm : (a1, b1, c1) = (a2, b2, c2) := by
      have : (Except.ok (a1, b1, c1) : Except (Error E) _) = .ok (a2, b2, c2) := by
        rw [← hm1, ← hm2]
      simpa using this
    simp only [Prod.mk.injEq] at hm
    obtain ⟨e1, e2, e3⟩ := hm
    subst e1 e2 e3
    simp only [Option.getD_some] at hf1 hf2 hnd1
    constructor
    · have hv1 : f1.DepVersions = moduleSort env.semver env.module (depVersionList env deps1) := by
        rw [hf1]; rfl
      have hv2 : f2.DepVersions = moduleSort env.semver env.module (depVersionList env deps2) := by
        rw [hf2]; rfl
      rw [hv1, hv2]
      refine sorted_perm_eq (versionLE env.semver env.module) _ _
        (((moduleSort_perm _ _ _).trans hvers).trans (moduleSort_perm _ _ _).symm)
        (moduleSort_pairwise _ hsv _ _) (moduleSort_pairwise _ hsv _ _) ?_
      intro x hx y hy
      exact hanti x ((moduleSort_perm _ _ _).mem_iff.1 hx) y ((moduleSort_perm _ _ _).mem_iff.1 hy)
    · intro k
      have hd1 : f1.DefaultMajorVersions = (a1, b1) :: defaultPairs env deps1 := by
        rw [hf1]; simp [File.DefaultMajorVersions, finish]
      have hd2 : f2.DefaultMajorVersions = (a1, b1) :: defaultPairs env deps2 := by
        rw [hf2]; simp [File.DefaultMajorVersions, finish]
      rw [hd1, hd2]
      exact mapGet_perm _ _ (hpairs.cons (a1, b1)) (by simpa using hnd1) k

/-- C19, an instance of `postDecode_order_independent`: the dependencies
`b.com@v1` and `a.com@v1` give the same result in both orders. -/
theorem postDecode_order_independent_witness :
    ∃ f1 f2 : File,
      postDecode (Ref.envOf "m.com/x@v1" none)
        { Ref.decoded "m.com/x@v1" none with
          Deps := some [("b.com@v1", ⟨"v1.0.0", false⟩), ("a.com@v1", ⟨"v1.2.0", true⟩)] }
        "module.cue" true = .ok f1 ∧
      postDecode (Ref.envOf "m.com/x@v1" none)
        { Ref.decoded "m.com/x@v1" none with
          Deps := some [("a.com@v1", ⟨"v1.2.0", true⟩), ("b.com@v1", ⟨"v1.0.0", false⟩)] }
        "module.cue" true = .ok f2 ∧
      f1.DepVersions = f2.DepVersions ∧
      ∀ k, mapGet f1.DefaultMajorVersions k = mapGet f2.DefaultMajorVersions k := by
  have h := postDecode_order_independent (Ref.envOf "m.com/x@v1" none) Ref.semver_ordered
    (Ref.decoded "m.com/x@v1" none) "module.cue" true
    [("b.com@v1", ⟨"v1.0.0", false⟩), ("a.com@v1", ⟨"v1.2.0", true⟩)]
    [("a.com@v1", ⟨"v1.2.0", true⟩), ("b.com@v1", ⟨"v1.0.0", false⟩)]
    (List.Perm.swap _ _ _) (by decide)
  have h1 : postDecode (Ref.envOf "m.com/x@v1" none)
      { Ref.decoded "m.com/x@v1" none with
        Deps := some [("b.com@v1", ⟨"v1.0.0", false⟩), ("a.com@v1", ⟨"v1.2.0", true⟩)] }
      "module.cue" true =
      .ok { Ref.decoded "m.com/x@v1"
              (some [("b.com@v1", ⟨"v1.0.0", false⟩), ("a.com@v1", ⟨"v1.2.0", true⟩)]) with
            versions := [⟨"a.com@v1", "v1.2.0"⟩, ⟨"b.com@v1", "v1.0.0"⟩]
            defaultMajorVersions := [("m.com/x", "v1"), ("a.com", "v1")] } := by decide
  obtain ⟨f2, h2⟩ := h.1.1 ⟨_, h1⟩
  exact ⟨_, f2, h1, h2, h.2 _ f2 h1 h2⟩

/-! ### The round-trip law -/

/-- A `Format` that returns bytes went through all its steps. -/
theorem Format_ok {Syntax Value E : Type} (env : Env Syntax Value E) (f : File)
    (data : String) (h : f.Format env = .ok data) :
    env.cue.ValidateConcrete (env.cue.Encode (omitEmptyDeps f).fields) = none ∧
    env.cue.FormatNode (env.cue.Encode (omitEmptyDeps f).fields) = .ok data ∧
    ∃ f1, ParseNonStrict env data "-" = .ok f1 ∧
      ¬ (f.Language ≠ none ∧ f1.actualSchemaVersion = "v0.0.0") := by
  unfold File.Format at h
  cases hv : env.cue.ValidateConcrete (env.cue.Encode (omitEmptyDeps f).fields) with
  | some err => simp [hv] at h
  | none =>
    simp only [hv] at h
    cases hn : env.cue.FormatNode (env.cue.Encode (omitEmptyDeps f).fields) with
    | error err => simp [hn] at h
    | ok data1 =>
      simp only [hn] at h
      cases hp : ParseNonStrict env data1 "-" with
      | error err => simp [hp] at h
      | ok f1 =>
        simp only [hp, omitEmptyDeps_Language] at h
        by_cases hg : f.Language ≠ none ∧ f1.actualSchemaVersion = "v0.0.0"
        · simp [hg] at h
        · simp only [hg, if_false, Except.ok.injEq] at h
          subst h
          exact ⟨rfl, rfl, f1, hp, hg⟩

/-- A decode stage that returns a file has decoded a non-empty language version,
selected a schema version for it and tagged the file with that version; unless
that version is `v0.0.0`, the fields of the file are those of the full decode. -/
theorem decodeStage_ok {Syntax Value E : Type} (env : Env Syntax Value E) (file : Syntax)
    (filename : String) (mf : File) (h : decodeStage env file filename = .ok mf) :
    ∃ ver latest schema,
      env.cue.DecodeBase (env.cue.BuildFile file) = .ok ver ∧ ver ≠ "" ∧
      selectSchema env.semver ver env.cue.zeroValue env.cue.Versions = some (latest, schema) ∧
      env.cue.Validate
        (env.cue.Unify (env.cue.BuildFile file) (env.cue.LookupFile schema)) = none ∧
      mf.actualSchemaVersion = latest ∧
      (latest ≠ "v0.0.0" →
        env.cue.DecodeFile
          (env.cue.Unify (env.cue.BuildFile file) (env.cue.LookupFile schema)) =
            .ok mf.fields) := by
  unfold decodeStage at h
  cases hc : env.cue.ValidateConcrete (env.cue.BuildFile file) with
  | some err => simp [hc] at h
  | none =>
    simp only [hc] at h
    cases hb : env.cue.DecodeBase (env.cue.BuildFile file) with
    | error err => simp [hb] at h
    | ok ver =>
      simp only [hb] at h
      by_cases h0 : ver = ""
      · simp [h0] at h
      · simp only [h0, if_false] at h
        by_cases h1 : env.semver.IsValid ver = false
        · simp [h1] at h
        · have h1' : env.semver.IsValid ver = true := by simpa using h1
          simp only [h1', Bool.true_eq_false, if_false] at h
          by_cases h2 : env.semver.Compare ver env.cue.LanguageVersion > 0
          · simp [h2] at h
          · simp only [h2, if_false] at h
            cases hs : selectSchema env.semver ver env.cue.zeroValue env.cue.Versions with
            | none => simp [hs] at h
            | some r =>
              obtain ⟨latest, schema⟩ := r
              simp only [hs] at h
              cases hval : env.cue.Validate
                  (env.cue.Unify (env.cue.BuildFile file) (env.cue.LookupFile schema)) with
              | some err => simp [hval] at h
              | none =>
                simp only [hval] at h
                refine ⟨ver, latest, schema, rfl, h0, hs, hval, ?_⟩
                by_cases h3 : latest = "v0.0.0"
                · simp only [h3, if_true] at h
                  cases hd : env.cue.DecodeNoDeps
                      (env.cue.Unify (env.cue.BuildFile file) (env.cue.LookupFile schema)) with
                  | error err => simp [hd] at h
                  | ok module =>
                    simp only [hd, Except.ok.injEq] at h
                    subst h
                    exact ⟨h3.symm, fun hne => absurd h3 hne⟩
                · simp only [h3, if_false] at h
                  cases hd : env.cue.DecodeFile
                      (env.cue.Unify (env.cue.BuildFile file) (env.cue.LookupFile schema)) with
                  | error err => simp [hd] at h
                  | ok y =>
                    simp only [hd, Except.ok.injEq] at h
                    subst h
                    exact ⟨rfl, fun _ => rfl⟩

/-- The three ways in which the main-module part of `parse` succeeds. -/
theorem mainModule_ok {Syntax Value E : Type} (env : Env Syntax Value E)
    (module filename : String) (strict : Bool) (mainPath mainMajor stored : String)
    (h : mainModule env module filename strict = .ok (mainPath, mainMajor, stored)) :
    ((env.module.SplitPathVersion module).2.2 = true ∧ stored = module) ∨
    ((env.module.SplitPathVersion module).2.2 = false ∧ module ≠ "" ∧
      env.module.CheckPathWithoutVersion module = none ∧ stored = module ++ "@v0") ∨
    ((env.module.SplitPathVersion module).2.2 = false ∧ module = "" ∧ stored = module) := by
  unfold mainModule at h
  by_cases hs : strict = true ∧ (env.module.SplitPathVersion module).2.2 = false
  · simp [hs] at h
  · simp only [hs, if_false] at h
    by_cases hok : (env.module.SplitPathVersion module).2.2 = true
    · simp only [hok, if_true] at h
      by_cases hmaj : env.semver.Major (env.module.SplitPathVersion module).2.1 ≠
          (env.module.SplitPathVersion module).2.1
      · simp [hmaj] at h
      · simp only [hmaj, if_false, Except.ok.injEq, Prod.mk.injEq] at h
        exact Or.inl ⟨hok, h.2.2.symm⟩
    · have hok' : (env.module.SplitPathVersion module).2.2 = false := by
        simpa using hok
      simp only [hok', Bool.false_eq_true, if_false] at h
      by_cases hne : module ≠ ""
      · rw [if_pos hne] at h
        cases hcp : env.module.CheckPathWithoutVersion module with
        | some err => simp [hcp] at h
        | none =>
          simp only [hcp, Except.ok.injEq, Prod.mk.injEq] at h
          exact Or.inr (Or.inl ⟨hok', hne, rfl, h.2.2.symm⟩)
      · simp only [hne, if_false, Except.ok.injEq, Prod.mk.injEq] at h
        simp only [ne_eq, not_not] at hne
        exact Or.inr (Or.inr ⟨hok', hne, h.2.2.symm⟩)

theorem omitEmptyDeps_Deps (f : File) : (omitEmptyDeps f).Deps ≠ some [] := by
  unfold omitEmptyDeps
  by_cases h : f.Deps = some []
  · simp [h]
  · simp [h]

theorem omitEmptyDeps_Module (f : File) : (omitEmptyDeps f).Module = f.Module := by
  unfold omitEmptyDeps
  split_ifs <;> rfl

theorem omitEmptyDeps_of_ne (f : File) (h : f.Deps ≠ some []) : omitEmptyDeps f = f := by
  unfold omitEmptyDeps
  simp [h]

theorem finish_fields {Syntax Value E : Type} (env : Env Syntax Value E) (mf : File)
    (st : DepState) : (finish env mf mf.Module st).fields = mf.fields := rfl

theorem finish_actualSchemaVersion {Syntax Value E : Type} (env : Env Syntax Value E)
    (mf : File) (module : String) (st : DepState) :
    (finish env mf module st).actualSchemaVersion = mf.actualSchemaVersion := rfl

/-- The module path of a file that `parse` returned has a major version or is
empty, when a valid bare path followed by `@v0` has a major version. -/
theorem parse_Module_split {Syntax Value E : Type} (env : Env Syntax Value E)
    (hmod : env.module.SplitsDefaultMajor) (modfile filename : String) (strict : Bool)
    (m : File) (hm : parse env modfile filename strict = .ok m) :
    (env.module.SplitPathVersion m.Module).2.2 = true ∨ m.Module = "" := by
  obtain ⟨mf, mainPath, mainMajor, module, hb, _, _, hfin⟩ :=
    parse_ok_state env modfile filename strict m hm
  obtain ⟨file, _, _, hmain, _⟩ := beforeDeps_ok env modfile filename strict _ _ _ _ hb
  have hmod' : m.Module = module := by rw [hfin]; rfl
  rw [hmod']
  rcases mainModule_ok env mf.Module filename strict mainPath mainMajor module hmain with
    ⟨hok, hst⟩ | ⟨_, _, hcp, hst⟩ | ⟨_, he, hst⟩
  · rw [hst]; exact Or.inl hok
  · rw [hst]; exact Or.inl (hmod mf.Module hcp)
  · rw [hst]; exact Or.inr he

/-- What a re-parse of the text printed for `x` returns, when the engine reads the
text back: the schema version that the language version of `x` selects and, unless
that version is `v0.0.0`, a file with the fields `x`. -/
theorem parse_reads_back {Syntax Value E : Type} (env : Env Syntax Value E)
    (x : FileFields) (data : String) (hengine : ReadsBack env x data)
    (hsplit : (env.module.SplitPathVersion x.Module).2.2 = true ∨ x.Module = "")
    (filename : String) (strict : Bool) (f : File)
    (h : parse env data filename strict = .ok f) :
    (x.Language.map (fun l => l.Version)).getD "" ≠ "" ∧
    ∃ latest schema,
      selectSchema env.semver ((x.Language.map (fun l => l.Version)).getD "")
        env.cue.zeroValue env.cue.Versions = some (latest, schema) ∧
      f.actualSchemaVersion = latest ∧
      (latest ≠ "v0.0.0" → f.fields = x) := by
  obtain ⟨mf, mainPath, mainMajor, module, hb, _, _, hfin⟩ :=
    parse_ok_state env data filename strict f h
  obtain ⟨file, hpf, hd, hmain, _⟩ := beforeDeps_ok env data filename strict _ _ _ _ hb
  obtain ⟨ver, latest, schema, hbase, hne, hsel, hval, htag, hfull⟩ :=
    decodeStage_ok env file filename mf hd
  have hver := hengine.base filename file ver hpf hbase
  rw [hver] at hne hsel
  refine ⟨hne, latest, schema, hsel, ?_, ?_⟩
  · rw [hfin, finish_actualSchemaVersion, htag]
  · intro hl
    have hx : mf.fields = x :=
      hengine.full filename file latest schema mf.fields hpf hsel hval (hfull hl)
    have hmodule : mf.Module = x.Module := by rw [← hx]; rfl
    have hstored : module = mf.Module := by
      rcases mainModule_ok env mf.Module filename strict mainPath mainMajor module hmain with
        ⟨_, hst⟩ | ⟨hnok, hne2, _, _⟩ | ⟨_, _, hst⟩
      · exact hst
      · exfalso
        rw [hmodule] at hnok hne2
        rcases hsplit with hs | hs
        · rw [hs] at hnok; simp at hnok
        · exact hne2 hs
      · exact hst
    rw [hfin, hstored, finish_fields, hx]

/-- C18: for a file `m` that `parse` returned and for which `Format` returns the
bytes `data`, `Format` of every file that `parse` returns for `data` is `data`
again.  Two properties of the packages outside the file are assumed: the engine
reads back the text that it printed for `m` (`ReadsBack`, for the schema that
`parse` selects), and a valid bare path followed by `@v0` has a major version. -/
theorem Format_round_trip {Syntax Value E : Type} (env : Env Syntax Value E)
    (hmod : env.module.SplitsDefaultMajor)
    (m : File) (modfile0 filename0 : String) (strict0 : Bool)
    (hm : parse env modfile0 filename0 strict0 = .ok m)
    (data : String) (hfmt : m.Format env = .ok data)
    (hengine : ReadsBack env (omitEmptyDeps m).fields data)
    (filename : String) (strict : Bool) (f1 : File)
    (hre : parse env data filename strict = .ok f1) :
    f1.Format env = .ok data := by
  obtain ⟨hv, hn, f2, hp2, hguard⟩ := Format_ok env m data hfmt
  have hxm : (omitEmptyDeps m).fields.Module = m.Module := omitEmptyDeps_Module m
  have hxl : (omitEmptyDeps m).fields.Language = m.Language := omitEmptyDeps_Language m
  have hsplit : (env.module.SplitPathVersion (omitEmptyDeps m).fields.Module).2.2 = true ∨
      (omitEmptyDeps m).fields.Module = "" := by
    rw [hxm]; exact parse_Module_split env hmod modfile0 filename0 strict0 m hm
  obtain ⟨hne1, latest1, schema1, hsel1, htag1, hfields1⟩ :=
    parse_reads_back env _ data hengine hsplit filename strict f1 hre
  obtain ⟨_, latest2, schema2, hsel2, htag2, _⟩ :=
    parse_reads_back env _ data hengine hsplit "-" false f2 hp2
  have hlatest : latest1 = latest2 := by
    rw [hsel1] at hsel2
    simp only [Option.some.injEq, Prod.mk.injEq] at hsel2
    exact hsel2.1
  have hlang : m.Language ≠ none := by
    intro e
    rw [hxl, e] at hne1
    simp at hne1
  have htag : f2.actualSchemaVersion ≠ "v0.0.0" := fun e => hguard ⟨hlang, e⟩
  have hl1 : latest1 ≠ "v0.0.0" := by
    rw [hlatest, ← htag2]; exact htag
  have hf1 : f1.fields = (omitEmptyDeps m).fields := hfields1 hl1
  have hdeps : f1.Deps ≠ some [] := by
    have : f1.Deps = (omitEmptyDeps m).Deps := congrArg FileFields.Deps hf1
    rw [this]; exact omitEmptyDeps_Deps m
  have hnot : ¬ (f1.Language ≠ none ∧ f2.actualSchemaVersion = "v0.0.0") :=
    fun hg => htag hg.2
  unfold File.Format
  simp only [omitEmptyDeps_of_ne f1 hdeps, hf1, hv, hn, hp2, hnot, if_false]

/-- The concrete `module` gives a major version to a valid bare path followed by
`@v0`. -/
theorem Ref.module_splitsDefaultMajor : Ref.module.SplitsDefaultMajor := by
  intro p hcp
  have hcp' : ¬ (p = "" ∨ '@' ∈ p.data) := by
    intro h
    simp [Ref.module, Ref.CheckPathWithoutVersion, h] at hcp
  have hne : p ≠ "" := fun e => hcp' (Or.inl e)
  have hat : '@' ∉ p.data := fun e => hcp' (Or.inr e)
  have hdata : (p ++ "@v0").data = p.data ++ '@' :: ['v', '0'] := by
    rw [String.data_append]
  have hidx : lastIndex (p ++ "@v0").data ['@'] = some p.data.length := by
    rw [hdata]; exact lastIndex_append '@' p.data ['v', '0'] (by decide)
  have hdrop : List.drop (p.data.length + 1) (p.data ++ '@' :: ['v', '0']) = ['v', '0'] := by
    rw [show p.data ++ '@' :: ['v', '0'] = (p.data ++ ['@']) ++ ['v', '0'] by simp]
    rw [show p.data.length + 1 = (p.data ++ ['@']).length by simp]
    exact List.drop_left _ _
  have hsplit : Ref.splitAt (p ++ "@v0") = some (p, "v0") := by
    unfold Ref.splitAt
    rw [hidx]
    simp only [hdata, List.take_left, hdrop]
  have hvalid : Ref.semver.IsValid "v0" = true := by decide
  show (Ref.SplitPathVersion (p ++ "@v0")).2.2 = true
  simp only [Ref.SplitPathVersion, hsplit]
  simp [hne, hvalid]

/-- The text engine reads back a text that parses to `x`. -/
theorem Ref.textEnv_readsBack (x : FileFields) (data : String)
    (h : Ref.parseText data = .ok x) : ReadsBack Ref.textEnv x data where
  base := by
    intro filename file ver hp hb
    have hp' : Ref.parseText data = .ok file := hp
    rw [h] at hp'
    simp only [Except.ok.injEq] at hp'
    subst hp'
    have hb' : (Except.ok ((x.Language.map (fun l => l.Version)).getD "") :
        Except String String) = .ok ver := hb
    simp only [Except.ok.injEq] at hb'
    exact hb'.symm
  full := by
    intro filename file latest schema y hp _ _ hd
    have hp' : Ref.parseText data = .ok file := hp
    rw [h] at hp'
    simp only [Except.ok.injEq] at hp'
    subst hp'
    have hd' : (Except.ok x : Except String FileFields) = .ok y := hd
    simp only [Except.ok.injEq] at hd'
    exact hd'.symm

/-- C18, an instance of `Format_round_trip` with an engine that parses the text it
prints: `ParseNonStrict` stores the module path `example.com/foo` as
`example.com/foo@v0`; the file is printed, the printed text is parsed again (in
strict mode) and the result is printed to the same bytes. -/
theorem Format_round_trip_witness :
    ∃ (m f1 : File) (data : String),
      parse Ref.textEnv
        "module: example.com/foo\nlanguage: v0.9.0\ndeps:\ndep: a.com@v1 v1.2.0 default"
        "module.cue" false = .ok m ∧
      m.Module = "example.com/foo@v0" ∧
      m.Format Ref.textEnv = .ok data ∧
      data = "module: example.com/foo@v0\nlanguage: v0.9.0\ndeps:\ndep: a.com@v1 v1.2.0 default" ∧
      parse Ref.textEnv data "-" true = .ok f1 ∧
      f1.Format Ref.textEnv = .ok data := by
  have hm : parse Ref.textEnv
      "module: example.com/foo\nlanguage: v0.9.0\ndeps:\ndep: a.com@v1 v1.2.0 default"
      "module.cue" false =
      .ok { Ref.decoded "example.com/foo@v0" (some [("a.com@v1", ⟨"v1.2.0", true⟩)]) with
            versions := [⟨"a.com@v1", "v1.2.0"⟩]
            defaultMajorVersions := [("example.com/foo", "v0"), ("a.com", "v1")] } := by
    decide
  have hfmt : File.Format Ref.textEnv
      { Ref.decoded "example.com/foo@v0" (some [("a.com@v1", ⟨"v1.2.0", true⟩)]) with
        versions := [⟨"a.com@v1", "v1.2.0"⟩]
        defaultMajorVersions := [("example.com/foo", "v0"), ("a.com", "v1")] } =
      .ok "module: example.com/foo@v0\nlanguage: v0.9.0\ndeps:\ndep: a.com@v1 v1.2.0 default" := by
    decide
  have hre : parse Ref.textEnv
      "module: example.com/foo@v0\nlanguage: v0.9.0\ndeps:\ndep: a.com@v1 v1.2.0 default"
      "-" true =
      .ok { Ref.decoded "example.com/foo@v0" (some [("a.com@v1", ⟨"v1.2.0", true⟩)]) with
            versions := [⟨"a.com@v1", "v1.2.0"⟩]
            defaultMajorVersions := [("example.com/foo", "v0"), ("a.com", "v1")] } := by
    decide
  exact ⟨_, _, _, hm, rfl, hfmt, rfl, hre,
    Format_round_trip Ref.textEnv Ref.module_splitsDefaultMajor
      _ _ "module.cue" false hm _ hfmt
      (Ref.textEnv_readsBack _ _ (by decide)) "-" true _ hre⟩

/-! ### The main module's entry of the default-major-version map -/

/-- The values of `mainPath` and `mainMajor` when the main-module part of `parse`
succeeds: what `module.SplitPathVersion` reports for the module path if it reports
a major version; otherwise the module path itself, with `v0` unless the module
path is empty. -/
theorem mainModule_values {Syntax Value E : Type} (env : Env Syntax Value E)
    (module filename : String) (strict : Bool) (mainPath mainMajor stored : String)
    (h : mainModule env module filename strict = .ok (mainPath, mainMajor, stored)) :
    mainPath = (if (env.module.SplitPathVersion module).2.2 = true
      then (env.module.SplitPathVersion module).1 else module) ∧
    mainMajor = (if (env.module.SplitPathVersion module).2.2 = true
      then (env.module.SplitPathVersion module).2.1
      else if module ≠ "" then "v0" else (env.module.SplitPathVersion module).2.1) := by
  unfold mainModule at h
  by_cases hs : strict = true ∧ (env.module.SplitPathVersion module).2.2 = false
  · simp [hs] at h
  · simp only [hs, if_false] at h
    by_cases hok : (env.module.SplitPathVersion module).2.2 = true
    · simp only [hok, if_true] at h ⊢
      by_cases hmaj : env.semver.Major (env.module.SplitPathVersion module).2.1 ≠
          (env.module.SplitPathVersion module).2.1
      · simp [hmaj] at h
      · simp only [hmaj, if_false, Except.ok.injEq, Prod.mk.injEq] at h
        exact ⟨h.1.symm, h.2.1.symm⟩
    · have hok' : (env.module.SplitPathVersion module).2.2 = false := by
        simpa using hok
      simp only [hok', Bool.false_eq_true, if_false] at h ⊢
      by_cases hne : module ≠ ""
      · rw [if_pos hne] at h
        rw [if_pos hne]
        cases hcp : env.module.CheckPathWithoutVersion module with
        | some err => simp [hcp] at h
        | none =>
          simp only [hcp, Except.ok.injEq, Prod.mk.injEq] at h
          exact ⟨h.1.symm, h.2.1.symm⟩
      · rw [if_neg hne] at h
        rw [if_neg hne]
        simp only [Except.ok.injEq, Prod.mk.injEq] at h
        exact ⟨h.1.symm, h.2.1.symm⟩

/-- C3: the main module's base path is registered before the dependency loop.
The main base path is the path that `module.SplitPathVersion(mf.Module)` reports
or, when it reports no major version, `mf.Module` itself.
(i) When `parse` reaches the loop, every entry passes the checks that precede the
duplicate-default check, and some entry marked default has a module version whose
base path is the main base path, `parse` fails with the multiple-default error.
(ii) For every file that `parse` returns, `DefaultMajorVersions()` is not empty and
maps the main base path to the main major version: the major version that
`module.SplitPathVersion(mf.Module)` reports, or `v0` when it reports none and the
module path is not empty. -/
theorem parse_main_default_preseeded {Syntax Value E : Type} (env : Env Syntax Value E)
    (modfile filename : String) (strict : Bool) :
    (∀ (mf : File) (mainPath mainMajor module : String) (entry : String × Dep) (v : Version),
      beforeDeps env modfile filename strict = .ok (mf, mainPath, mainMajor, module) →
      (∀ e ∈ mf.Deps.getD [], depOk env strict e = true) →
      entry ∈ mf.Deps.getD [] → entry.2.Default = true →
      depVersion env entry = .ok v →
      env.module.BasePath v = (if (env.module.SplitPathVersion mf.Module).2.2 = true
        then (env.module.SplitPathVersion mf.Module).1 else mf.Module) →
      ∃ mp, parse env modfile filename strict =
          .error (.errorf ("multiple default major versions found for " ++ mp)) ∧
        mp ∈ (defaultPairs env (mf.Deps.getD [])).map Prod.fst ∧
        (mp = (if (env.module.SplitPathVersion mf.Module).2.2 = true
            then (env.module.SplitPathVersion mf.Module).1 else mf.Module) ∨
          2 ≤ ((defaultPairs env (mf.Deps.getD [])).map Prod.fst).count mp)) ∧
    (∀ f : File, parse env modfile filename strict = .ok f →
      f.DefaultMajorVersions ≠ [] ∧
      ∃ (file : Syntax) (mf : File),
        env.cue.ParseFile filename modfile = .ok file ∧
        decodeStage env file filename = .ok mf ∧
        ((env.module.SplitPathVersion mf.Module).2.2 = true →
          mapGet f.DefaultMajorVersions (env.module.SplitPathVersion mf.Module).1 =
            some (env.module.SplitPathVersion mf.Module).2.1) ∧
        ((env.module.SplitPathVersion mf.Module).2.2 = false → mf.Module ≠ "" →
          mapGet f.DefaultMajorVersions mf.Module = some "v0") ∧
        ((env.module.SplitPathVersion mf.Module).2.2 = false → mf.Module = "" →
          mapGet f.DefaultMajorVersions "" =
            some (env.module.SplitPathVersion mf.Module).2.1)) := by
  constructor
  · intro mf mainPath mainMajor module entry v hb hok hmem hd hv hbp
    obtain ⟨file, _, _, hmain, _⟩ := beforeDeps_ok env modfile filename strict _ _ _ _ hb
    obtain ⟨hpath, _⟩ := mainModule_values env mf.Module filename strict _ _ _ hmain
    rw [← hpath] at hbp ⊢
    exact parse_multiple_defaults env modfile filename strict mf mainPath mainMajor module
      (env.module.BasePath v) hb hok
      (mem_defaultPairs_keys env _ entry v hmem hd hv) (Or.inl hbp)
  · intro f hf
    obtain ⟨mf, mainPath, mainMajor, module, hb, _, _, hfin⟩ :=
      parse_ok_state env modfile filename strict f hf
    obtain ⟨file, hp, hdec, hmain, _⟩ := beforeDeps_ok env modfile filename strict _ _ _ _ hb
    obtain ⟨hpath, hmajor⟩ := mainModule_values env mf.Module filename strict _ _ _ hmain
    have hdm : f.DefaultMajorVersions =
        (mainPath, mainMajor) :: defaultPairs env (mf.Deps.getD []) := by
      rw [hfin]; simp [File.DefaultMajorVersions, finish]
    have hget : mapGet f.DefaultMajorVersions mainPath = some mainMajor := by
      rw [hdm]; simp [mapGet]
    refine ⟨by rw [hdm]; simp, file, mf, hp, hdec, ?_, ?_, ?_⟩
    · intro hok
      rw [if_pos hok] at hpath hmajor
      rw [← hpath, ← hmajor]; exact hget
    · intro hok hne
      have hok' : ¬ (env.module.SplitPathVersion mf.Module).2.2 = true := by simp [hok]
      rw [if_neg hok'] at hpath hmajor
      rw [if_pos hne] at hmajor
      rw [← hpath, ← hmajor]; exact hget
    · intro hok he
      have hok' : ¬ (env.module.SplitPathVersion mf.Module).2.2 = true := by simp [hok]
      have hne : ¬ mf.Module ≠ "" := by simp [he]
      rw [if_neg hok'] at hpath hmajor
      rw [if_neg hne] at hmajor
      rw [he] at hpath
      rw [← hpath, ← hmajor]; exact hget

/-- C3, instances of `parse_main_default_preseeded`: a default dependency
`m.com/x@v2` of the main module `m.com/x@v1` makes `Parse` fail, and the file that
`ParseNonStrict` returns for the main module `example.com/foo` with the default
dependency `a.com@v1` maps `example.com/foo` to `v0`. -/
theorem parse_main_default_preseeded_witness :
    (∃ mp, parse (Ref.envOf "m.com/x@v1" (some [("m.com/x@v2", ⟨"v2.0.0", true⟩)]))
        "" "module.cue" true =
      .error (.errorf ("multiple default major versions found for " ++ mp))) ∧
    (∃ f, parse (Ref.envOf "example.com/foo" (some [("a.com@v1", ⟨"v1.2.0", true⟩)]))
        "" "module.cue" false = .ok f ∧
      f.DefaultMajorVersions ≠ [] ∧
      mapGet f.DefaultMajorVersions "example.com/foo" = some "v0") := by
  constructor
  · obtain ⟨mp, h, _⟩ := (parse_main_default_preseeded
      (Ref.envOf "m.com/x@v1" (some [("m.com/x@v2", ⟨"v2.0.0", true⟩)]))
      "" "module.cue" true).1
      (Ref.decoded "m.com/x@v1" (some [("m.com/x@v2", ⟨"v2.0.0", true⟩)]))
      "m.com/x" "v1" "m.com/x@v1" ("m.com/x@v2", ⟨"v2.0.0", true⟩) ⟨"m.com/x@v2", "v2.0.0"⟩
      (by decide) (by decide) (by decide) rfl (by decide) (by decide)
    exact ⟨mp, h⟩
  · have hp : parse (Ref.envOf "example.com/foo" (some [("a.com@v1", ⟨"v1.2.0", true⟩)]))
        "" "module.cue" false =
        .ok { Ref.decoded "example.com/foo@v0" (some [("a.com@v1", ⟨"v1.2.0", true⟩)]) with
              versions := [⟨"a.com@v1", "v1.2.0"⟩]
              defaultMajorVersions := [("example.com/foo", "v0"), ("a.com", "v1")] } := by
      decide
    obtain ⟨hne, file, mf, hfile, hdec, _, hdefault, _⟩ := (parse_main_default_preseeded
      (Ref.envOf "example.com/foo" (some [("a.com@v1", ⟨"v1.2.0", true⟩)]))
      "" "module.cue" false).2 _ hp
    have hfile' : file = Ref.doc "example.com/foo" (some [("a.com@v1", ⟨"v1.2.0", true⟩)]) := by
      have : (Except.ok (Ref.doc "example.com/foo" (some [("a.com@v1", ⟨"v1.2.0", true⟩)])) :
          Except String FileFields) = .ok file := hfile
      simpa using this.symm
    subst hfile'
    have hdec' : decodeStage
        (Ref.envOf "example.com/foo" (some [("a.com@v1", ⟨"v1.2.0", true⟩)]))
        (Ref.doc "example.com/foo" (some [("a.com@v1", ⟨"v1.2.0", true⟩)])) "module.cue" =
        .ok (Ref.decoded "example.com/foo" (some [("a.com@v1", ⟨"v1.2.0", true⟩)])) := by
      decide
    rw [hdec'] at hdec
    simp only [Except.ok.injEq] at hdec
    subst hdec
    exact ⟨_, hp, hne, hdefault (by decide) (by decide)⟩

/-- C20: for every file that `parse` returns, the keys of `DefaultMajorVersions()`
are exactly the main base path and the base paths of the module versions of the
dependencies marked default.  The main base path is the path that
`module.SplitPathVersion(mf.Module)` reports or, when it reports no major version,
`mf.Module` itself, and it maps to the main major version: the reported major
version, or `v0` when none is reported and the module path is not empty.  The base
path of each default dependency maps to `semver.Major` of its version, and the map
is the one that the default dependencies alone produce. -/
theorem parse_defaultMajorVersions_exact {Syntax Value E : Type} (env : Env Syntax Value E)
    (modfile filename : String) (strict : Bool) (f : File)
    (hf : parse env modfile filename strict = .ok f) :
    ∃ (file : Syntax) (mf : File) (mainPath mainMajor : String),
      env.cue.ParseFile filename modfile = .ok file ∧
      decodeStage env file filename = .ok mf ∧
      f.Deps = mf.Deps ∧
      mainPath = (if (env.module.SplitPathVersion mf.Module).2.2 = true
        then (env.module.SplitPathVersion mf.Module).1 else mf.Module) ∧
      mainMajor = (if (env.module.SplitPathVersion mf.Module).2.2 = true
        then (env.module.SplitPathVersion mf.Module).2.1
        else if mf.Module ≠ "" then "v0" else (env.module.SplitPathVersion mf.Module).2.1) ∧
      (∀ k, k ∈ f.DefaultMajorVersions.map Prod.fst ↔
        (k = mainPath ∨ ∃ entry ∈ f.Deps.getD [], entry.2.Default = true ∧
          ∃ v, depVersion env entry = .ok v ∧ env.module.BasePath v = k)) ∧
      mapGet f.DefaultMajorVersions mainPath = some mainMajor ∧
      (∀ entry ∈ f.Deps.getD [], entry.2.Default = true →
        ∀ v, depVersion env entry = .ok v →
          mapGet f.DefaultMajorVersions (env.module.BasePath v) =
            some (env.semver.Major v.version)) ∧
      f.DefaultMajorVersions =
        (mainPath, mainMajor) ::
          defaultPairs env ((f.Deps.getD []).filter (fun entry => entry.2.Default)) := by
  obtain ⟨mf, mainPath, mainMajor, module, hb, _, hnd, hfin⟩ :=
    parse_ok_state env modfile filename strict f hf
  obtain ⟨file, hp, hdec, hmain, _⟩ := beforeDeps_ok env modfile filename strict _ _ _ _ hb
  obtain ⟨hpath, hmajor⟩ := mainModule_values env mf.Module filename strict _ _ _ hmain
  have hdeps : f.Deps = mf.Deps := by rw [hfin]; rfl
  have hdm : f.DefaultMajorVersions =
      (mainPath, mainMajor) :: defaultPairs env (mf.Deps.getD []) := by
    rw [hfin]; simp [File.DefaultMajorVersions, finish]
  have hnd' : (((mainPath, mainMajor) :: defaultPairs env (mf.Deps.getD [])).map
      Prod.fst).Nodup := by simpa using hnd
  refine ⟨file, mf, mainPath, mainMajor, hp, hdec, hdeps, hpath, hmajor, ?_, ?_, ?_, ?_⟩
  · intro k
    rw [hdm, hdeps]
    constructor
    · intro h
      simp only [List.map_cons, List.mem_cons, List.mem_map] at h
      rcases h with h | ⟨⟨k1, m⟩, hmem, hk⟩
      · exact Or.inl h
      · simp only at hk
        subst hk
        obtain ⟨entry, hmem1, hd, v, hv, hbp, _⟩ := (mem_defaultPairs_iff env _ k1 m).1 hmem
        exact Or.inr ⟨entry, hmem1, hd, v, hv, hbp⟩
    · rintro (h | ⟨entry, hmem, hd, v, hv, hk⟩)
      · simp [h]
      · have hin := (mem_defaultPairs_iff env (mf.Deps.getD []) k
          (env.semver.Major v.version)).2 ⟨entry, hmem, hd, v, hv, hk, rfl⟩
        simp only [List.map_cons, List.mem_cons, List.mem_map]
        exact Or.inr ⟨(k, env.semver.Major v.version), hin, rfl⟩
  · rw [hdm]; simp [mapGet]
  · intro entry hmem hd v hv
    rw [hdm]
    rw [hdeps] at hmem
    exact mapGet_of_mem _ _ _ hnd' (List.mem_cons_of_mem _
      ((mem_defaultPairs_iff env _ _ _).2 ⟨entry, hmem, hd, v, hv, rfl, rfl⟩))
  · rw [hdm, hdeps, defaultPairs_filter]

/-- C20, an instance of `parse_defaultMajorVersions_exact`: with the main module
`example.com/foo` (no major version, non-strict mode), the default dependency
`a.com@v1` and the dependency `b.com@v1` that is not default, the map is
`example.com/foo ↦ v0`, `a.com ↦ v1`. -/
theorem parse_defaultMajorVersions_exact_witness :
    ∃ f, parse (Ref.envOf "example.com/foo" (some [("b.com@v1", ⟨"v1.0.0", false⟩),
          ("a.com@v1", ⟨"v1.2.0", true⟩)])) "" "module.cue" false = .ok f ∧
      f.DefaultMajorVersions = [("example.com/foo", "v0"), ("a.com", "v1")] ∧
      mapGet f.DefaultMajorVersions "a.com" = some "v1" := by
  have hp : parse (Ref.envOf "example.com/foo" (some [("b.com@v1", ⟨"v1.0.0", false⟩),
        ("a.com@v1", ⟨"v1.2.0", true⟩)])) "" "module.cue" false =
      .ok { Ref.decoded "example.com/foo@v0" (some [("b.com@v1", ⟨"v1.0.0", false⟩),
              ("a.com@v1", ⟨"v1.2.0", true⟩)]) with
            versions := [⟨"a.com@v1", "v1.2.0"⟩, ⟨"b.com@v1", "v1.0.0"⟩]
            defaultMajorVersions := [("example.com/foo", "v0"), ("a.com", "v1")] } := by
    decide
  obtain ⟨file, mf, mainPath, mainMajor, hfile, hdec, _, hpath, hmajor, _, _, hent, hmap⟩ :=
    parse_defaultMajorVersions_exact
      (Ref.envOf "example.com/foo" (some [("b.com@v1", ⟨"v1.0.0", false⟩),
        ("a.com@v1", ⟨"v1.2.0", true⟩)])) "" "module.cue" false _ hp
  have hfile' : file = Ref.doc "example.com/foo" (some [("b.com@v1", ⟨"v1.0.0", false⟩),
      ("a.com@v1", ⟨"v1.2.0", true⟩)]) := by
    have : (Except.ok (Ref.doc "example.com/foo" (some [("b.com@v1", ⟨"v1.0.0", false⟩),
        ("a.com@v1", ⟨"v1.2.0", true⟩)])) : Except String FileFields) = .ok file := hfile
    simpa using this.symm
  subst hfile'
  have hdec' : decodeStage
      (Ref.envOf "example.com/foo" (some [("b.com@v1", ⟨"v1.0.0", false⟩),
        ("a.com@v1", ⟨"v1.2.0", true⟩)]))
      (Ref.doc "example.com/foo" (some [("b.com@v1", ⟨"v1.0.0", false⟩),
        ("a.com@v1", ⟨"v1.2.0", true⟩)])) "module.cue" =
      .ok (Ref.decoded "example.com/foo" (some [("b.com@v1", ⟨"v1.0.0", false⟩),
        ("a.com@v1", ⟨"v1.2.0", true⟩)])) := by decide
  rw [hdec'] at hdec
  simp only [Except.ok.injEq] at hdec
  subst hdec
  have hpath' : mainPath = "example.com/foo" := by rw [hpath]; decide
  have hmajor' : mainMajor = "v0" := by rw [hmajor]; decide
  subst hpath' hmajor'
  refine ⟨_, hp, ?_, hent ("a.com@v1", ⟨"v1.2.0", true⟩) (by decide) rfl
    ⟨"a.com@v1", "v1.2.0"⟩ (by decide)⟩
  rw [hmap]
  decide

end Modfile
